import Mathlib

/-!
Verification development for the dotstrap render-and-link pipeline.

The Rust sources are shallowly embedded:
* paths are lists of components (`Path := List String`); `Path::join` with a
  relative argument is list append;
* the filesystem is a map `Path → Option Node` where a node is a directory,
  a regular file (content and optional permission mode), or a symbolic link;
  directory contents are modelled per-path (each path owns its node);
* fallible `std::fs` operations return `Except FsError`;
* `SystemTime` unix-second timestamps are explicit `Nat` parameters;
* byte strings are `String`.
-/

namespace Dotstrap

/-- A filesystem path, as its list of components (`Path::components`). -/
abbrev Path := List String

/-- One filesystem node: directory, regular file (content plus the optional
permission mode applied by `apply_mode`; `none` is the default mode a plain
copy produces), or symbolic link with its stored target. -/
inductive Node where
  | dir : Node
  | file (content : String) (mode : Option Nat) : Node
  | symlink (target : Path) : Node
deriving DecidableEq, Repr

/-- Filesystem state: which node, if any, each path holds. -/
abbrev FS := Path → Option Node

namespace FS

/-- Overwrite the node at a path. -/
def set (fs : FS) (p : Path) (n : Node) : FS :=
  fun q => if q = p then some n else fs q

/-- Remove the node at a path (`fs::remove_file`). -/
def erase (fs : FS) (p : Path) : FS :=
  fun q => if q = p then none else fs q

end FS

/-- Errors of the embedded `std::fs` operations. -/
inductive FsError where
  | notADir : FsError
  | isADir : FsError
  | alreadyExists : FsError
  | notFound : FsError
  | tooManyLinks : FsError
  | invalidRename : FsError
deriving DecidableEq, Repr

/-- `path.is_symlink()`: link-aware, non-dereferencing test. -/
def isSymlinkF (fs : FS) (p : Path) : Bool :=
  match fs p with
  | some (.symlink _) => true
  | _ => false

/-- `path.exists()`: dereferencing existence test; symlinks are followed
(with fuel against cycles), so a dangling symlink does not "exist". -/
def existsF (fs : FS) : Nat → Path → Bool
  | 0, _ => false
  | fuel + 1, p =>
    match fs p with
    | none => false
    | some (.symlink t) => existsF fs fuel t
    | some _ => true

/-- Symlink-chain fuel used by the embedding (stands in for the OS ELOOP
limit; any bound large enough for the states in this development works). -/
def linkFuel : Nat := 64

/-- Create one directory: ok if absent (created) or already a directory. -/
def ensureDir (fs : FS) (p : Path) : Except FsError FS :=
  match fs p with
  | none => .ok (fs.set p .dir)
  | some .dir => .ok fs
  | some _ => .error .notADir

/-- `fs::create_dir_all`: create every (nonempty) prefix of the path as a
directory, failing if a non-directory occupies any of them. -/
def create_dir_all (fs : FS) (p : Path) : Except FsError FS :=
  (p.inits.filter (· ≠ [])).foldlM ensureDir fs

/-- Follow symlinks at a path until a non-symlink position is reached. -/
def resolvePath (fs : FS) : Nat → Path → Except FsError Path
  | 0, _ => .error .tooManyLinks
  | fuel + 1, p =>
    match fs p with
    | some (.symlink t) => resolvePath fs fuel t
    | _ => .ok p

/-- `fs::copy` of known source bytes onto a destination path: the
destination is opened through symlinks and truncated, so the bytes land at
the resolved position; copying onto a directory fails. The written file
carries the default copied mode (`none`). -/
def copyTo (fs : FS) (p : Path) (content : String) : Except FsError FS := do
  let q ← resolvePath fs linkFuel p
  match fs q with
  | some .dir => .error .isADir
  | _ => .ok (fs.set q (.file content none))

/-- `fs::rename`: move the node at `src` to `dst`, replacing a non-directory
occupant of `dst`; renaming into one's own subtree or onto a directory
fails. -/
def renameNode (fs : FS) (src dst : Path) : Except FsError FS :=
  match fs src with
  | none => .error .notFound
  | some n =>
    if src.isPrefixOf dst then .error .invalidRename
    else
      match fs dst with
      | some .dir => .error .isADir
      | _ => .ok ((fs.erase src).set dst n)

/-- `std::os::unix::fs::symlink`: create a symlink at `destination` pointing
at `source`; fails if anything (even a dangling link) occupies it. -/
def create_symlink (fs : FS) (source destination : Path) : Except FsError FS :=
  match fs destination with
  | some _ => .error .alreadyExists
  | none => .ok (fs.set destination (.symlink source))

/-- `apply_mode`: when a mode is given, set the permission bits of the
(symlink-resolved) staged file; no-op otherwise. -/
def apply_mode (fs : FS) (rendered : Path) (mode : Option Nat) : Except FsError FS :=
  match mode with
  | none => .ok fs
  | some m => do
    let q ← resolvePath fs linkFuel rendered
    match fs q with
    | some (.file c _) => .ok (fs.set q (.file c (some m)))
    | some .dir => .ok fs
    | _ => .error .notFound

/-- Backup file name derived in `reconcile_existing`:
`format!("{file_name}.{timestamp}.bak")`. -/
def backupName (fileName : String) (timestamp : Nat) : String :=
  fileName ++ "." ++ toString timestamp ++ ".bak"

/-- The sibling backup directory used by `reconcile_existing`:
`path.parent().join(".dotstrap-backups")`. -/
def backupDirOf (path : Path) : Path :=
  path.dropLast ++ [".dotstrap-backups"]

/-- `reconcile_existing`: a symlink occupant is removed outright; a missing
node is left alone; any other occupant is renamed into the sibling backup
directory under a timestamped name (`file_name()` falls back to "config"
for a path without a final component). -/
def reconcile_existing (fs : FS) (path : Path) (timestamp : Nat) : Except FsError FS :=
  if isSymlinkF fs path then
    .ok (fs.erase path)
  else if ¬ existsF fs linkFuel path then
    .ok fs
  else do
    let backupDir := backupDirOf path
    let fs ← create_dir_all fs backupDir
    let fileName := (path.getLast?).getD "config"
    renameNode fs path (backupDir ++ [backupName fileName timestamp])

/-- `TemplateMapping`: template source path, home-relative destination path,
optional permission mode. -/
structure TemplateMapping where
  source : Path
  destination : Path
  mode : Option Nat
deriving DecidableEq, Repr

/-- `RenderedTemplate`: a manifest mapping paired with its rendered output;
the scratch file `rendered_path` is represented by its byte content. -/
structure RenderedTemplate where
  template : TemplateMapping
  content : String
deriving DecidableEq, Repr

/-- `RenderedSet.templates` (the backing tempdir is immaterial once contents
are in hand). -/
abbrev RenderedSet := List RenderedTemplate

/-- The staging subtree relative to the home root: `.dotstrap/generated`. -/
def stageRel : Path := [".dotstrap", "generated"]

/-- The guarded reconcile call of the loop:
`if destination.exists() || destination.is_symlink() { reconcile_existing(..)? }`. -/
def reconcileIfOccupied (fs : FS) (destination : Path) (timestamp : Nat) :
    Except FsError FS :=
  if existsF fs linkFuel destination || isSymlinkF fs destination then
    reconcile_existing fs destination timestamp
  else
    pure fs

/-- The non-dry-run body of `link_templates`' loop for one rendered
template: ensure the destination's parent, reconcile any occupant, stage
the rendered content, apply the mode, and link the destination to the
staged copy. -/
def linkOne (home : Path) (timestamp : Nat) (fs : FS) (item : RenderedTemplate) :
    Except FsError FS := do
  let destination := home ++ item.template.destination
  let fs ← create_dir_all fs destination.dropLast
  let fs ← reconcileIfOccupied fs destination timestamp
  let stagePath := home ++ stageRel ++ item.template.destination
  let fs ← create_dir_all fs stagePath.dropLast
  let fs ← copyTo fs stagePath item.content
  let fs ← apply_mode fs stagePath item.template.mode
  create_symlink fs stagePath destination

/-- The loop of `link_templates`: push each destination, and unless dry-run,
perform the linking steps for it. -/
def linkLoop (home : Path) (dryRun : Bool) (timestamp : Nat) :
    FS → List RenderedTemplate → Except FsError (FS × List Path)
  | fs, [] => .ok (fs, [])
  | fs, item :: rest => do
    let destination := home ++ item.template.destination
    if dryRun then
      let (fs1, out) ← linkLoop home dryRun timestamp fs rest
      .ok (fs1, destination :: out)
    else
      let fs ← linkOne home timestamp fs item
      let (fs1, out) ← linkLoop home dryRun timestamp fs rest
      .ok (fs1, destination :: out)

/-- `link_templates(home, rendered, dry_run)`: create the staging root
(unless dry-run) and process every rendered template in manifest order,
returning the destination list. -/
def link_templates (home : Path) (rendered : RenderedSet) (dryRun : Bool)
    (timestamp : Nat) (fs : FS) : Except FsError (FS × List Path) := do
  let fs ← if dryRun then pure fs else create_dir_all fs (home ++ stageRel)
  linkLoop home dryRun timestamp fs rendered

/-- Destination path of one rendered template under the home root. -/
def destOf (home : Path) (item : RenderedTemplate) : Path :=
  home ++ item.template.destination

/-- Staged-copy path of one rendered template under the staging root. -/
def stagePathOf (home : Path) (item : RenderedTemplate) : Path :=
  home ++ stageRel ++ item.template.destination

/-- The node a successful link leaves at the staged path: the rendered
content, with the mapping's mode if one is declared. -/
def stagedNode (item : RenderedTemplate) : Node :=
  .file item.content item.template.mode

/-- Observe the filesystem node at one path of a link run's result. -/
def stateAt (r : Except FsError (FS × List Path)) (p : Path) : Option (Option Node) :=
  r.toOption.map (fun x => x.1 p)

section BasicLemmas

theorem exceptBind_ok {ε α β : Type} {x : Except ε α} {f : α → Except ε β}
    {b : β} (h : (x >>= f) = .ok b) : ∃ a, x = .ok a ∧ f a = .ok b := by
  cases x with
  | error e => simp [Bind.bind, Except.bind] at h
  | ok a => exact ⟨a, rfl, h⟩

theorem FS.set_apply (fs : FS) (p : Path) (n : Node) (q : Path) :
    fs.set p n q = if q = p then some n else fs q := rfl

theorem FS.erase_apply (fs : FS) (p : Path) (q : Path) :
    fs.erase p q = if q = p then none else fs q := rfl

theorem FS.set_eq_of_lookup {fs : FS} {p : Path} {n : Node} (h : fs p = some n) :
    fs.set p n = fs := by
  funext q
  simp only [FS.set]
  split
  · next hq => rw [hq, h]
  · rfl

theorem FS.set_set (fs : FS) (p : Path) (n m : Node) :
    (fs.set p n).set p m = fs.set p m := by
  funext q
  simp only [FS.set]
  split <;> rfl

theorem FS.erase_set_cancel {fs : FS} {p : Path} {n : Node} (h : fs p = some n) :
    (fs.erase p).set p n = fs := by
  funext q
  simp only [FS.set, FS.erase]
  split
  · next hq => rw [hq, h]
  · rfl

theorem isSymlinkF_true_iff {fs : FS} {p : Path} :
    isSymlinkF fs p = true ↔ ∃ t, fs p = some (.symlink t) := by
  unfold isSymlinkF
  cases h : fs p with
  | none => simp
  | some n => cases n <;> simp

theorem occupied_iff {fs : FS} {p : Path} :
    (existsF fs linkFuel p || isSymlinkF fs p) = true ↔ fs p ≠ none := by
  constructor
  · intro h hnone
    rcases Bool.or_eq_true_iff.mp h with h1 | h2
    · rw [show linkFuel = 63 + 1 from rfl] at h1
      unfold existsF at h1
      rw [hnone] at h1
      exact absurd h1 (by simp)
    · rcases isSymlinkF_true_iff.mp h2 with ⟨t, ht⟩
      rw [hnone] at ht
      cases ht
  · intro h
    cases hn : fs p with
    | none => exact absurd hn h
    | some n =>
      cases n with
      | symlink t =>
        refine Bool.or_eq_true_iff.mpr (.inr ?_)
        exact isSymlinkF_true_iff.mpr ⟨t, hn⟩
      | dir =>
        refine Bool.or_eq_true_iff.mpr (.inl ?_)
        rw [show linkFuel = 63 + 1 from rfl]
        unfold existsF
        rw [hn]
      | file c m =>
        refine Bool.or_eq_true_iff.mpr (.inl ?_)
        rw [show linkFuel = 63 + 1 from rfl]
        unfold existsF
        rw [hn]

theorem resolvePath_of_nonlink {fs : FS} {p : Path}
    (h : ∀ t, fs p ≠ some (.symlink t)) (n : Nat) :
    resolvePath fs (n + 1) p = .ok p := by
  unfold resolvePath
  cases hp : fs p with
  | none => rfl
  | some nd => cases nd with
    | symlink t => exact absurd hp (h t)
    | dir => rfl
    | file c m => rfl

theorem copyTo_ok_of {fs : FS} {p : Path} {c : String}
    (hns : ∀ t, fs p ≠ some (.symlink t)) (hnd : fs p ≠ some .dir) :
    copyTo fs p c = .ok (fs.set p (.file c none)) := by
  unfold copyTo
  rw [show linkFuel = 63 + 1 from rfl, resolvePath_of_nonlink hns]
  cases hp : fs p with
  | none => simp only [Bind.bind, Except.bind, hp]
  | some nd => cases nd with
    | symlink t => exact absurd hp (hns t)
    | dir => exact absurd hp hnd
    | file c' m => simp only [Bind.bind, Except.bind, hp]

theorem copyTo_dir {fs : FS} {p : Path} {c : String} (h : fs p = some .dir) :
    copyTo fs p c = .error .isADir := by
  unfold copyTo
  rw [show linkFuel = 63 + 1 from rfl,
    resolvePath_of_nonlink (fun t ht => by rw [h] at ht; cases ht)]
  simp only [Bind.bind, Except.bind, h]

theorem apply_mode_none (fs : FS) (p : Path) : apply_mode fs p none = .ok fs := rfl

theorem apply_mode_file {fs : FS} {p : Path} {c : String} {mo : Option Nat} {m : Nat}
    (h : fs p = some (.file c mo)) :
    apply_mode fs p (some m) = .ok (fs.set p (.file c (some m))) := by
  unfold apply_mode
  rw [show linkFuel = 63 + 1 from rfl,
    resolvePath_of_nonlink (fun t ht => by rw [h] at ht; cases ht)]
  simp only [Bind.bind, Except.bind, h]

theorem create_symlink_ok {fs : FS} {s d : Path} (h : fs d = none) :
    create_symlink fs s d = .ok (fs.set d (.symlink s)) := by
  unfold create_symlink
  rw [h]

theorem create_symlink_occupied {fs : FS} {s d : Path} {n : Node}
    (h : fs d = some n) : create_symlink fs s d = .error .alreadyExists := by
  unfold create_symlink
  rw [h]

end BasicLemmas

section DirLemmas

/-- All nonempty prefixes of a path are directories. -/
def DirsBelow (fs : FS) (p : Path) : Prop :=
  ∀ q, q <+: p → q ≠ [] → fs q = some .dir

theorem ensureDir_ok_cases {fs fs' : FS} {p : Path} (h : ensureDir fs p = .ok fs') :
    (fs p = some .dir ∧ fs' = fs) ∨ (fs p = none ∧ fs' = fs.set p .dir) := by
  unfold ensureDir at h
  cases hp : fs p with
  | none =>
    rw [hp] at h
    exact .inr ⟨rfl, (Except.ok.injEq _ _).mp h |>.symm⟩
  | some n =>
    cases n with
    | dir =>
      rw [hp] at h
      exact .inl ⟨rfl, (Except.ok.injEq _ _).mp h |>.symm⟩
    | file c m => rw [hp] at h; cases h
    | symlink t => rw [hp] at h; cases h

theorem foldEnsure_apply {L : List Path} :
    ∀ {fs fs' : FS}, L.foldlM ensureDir fs = .ok fs' →
    ∀ q, fs' q = fs q ∨ (fs q = none ∧ fs' q = some .dir ∧ q ∈ L) := by
  induction L with
  | nil =>
    intro fs fs' h q
    simp only [List.foldlM] at h
    cases h
    exact .inl rfl
  | cons a L ih =>
    intro fs fs' h q
    rw [List.foldlM_cons] at h
    obtain ⟨fs1, h1, h2⟩ := exceptBind_ok h
    rcases ensureDir_ok_cases h1 with ⟨ha, rfl⟩ | ⟨ha, rfl⟩
    · rcases ih h2 q with h3 | ⟨h3, h4, h5⟩
      · exact .inl h3
      · exact .inr ⟨h3, h4, List.mem_cons_of_mem a h5⟩
    · rcases ih h2 q with h3 | ⟨h3, h4, h5⟩
      · rw [h3, FS.set_apply]
        split
        · next hq =>
          subst hq
          exact .inr ⟨ha, rfl, by simp⟩
        · exact .inl rfl
      · rw [FS.set_apply] at h3
        split at h3
        · cases h3
        · exact .inr ⟨h3, h4, List.mem_cons_of_mem a h5⟩

theorem foldEnsure_dirs {L : List Path} :
    ∀ {fs fs' : FS}, L.foldlM ensureDir fs = .ok fs' →
    ∀ q ∈ L, fs' q = some .dir := by
  induction L with
  | nil => intro fs fs' h q hq; cases hq
  | cons a L ih =>
    intro fs fs' h q hq
    rw [List.foldlM_cons] at h
    obtain ⟨fs1, h1, h2⟩ := exceptBind_ok h
    rcases List.mem_cons.mp hq with rfl | hq'
    · rcases ensureDir_ok_cases h1 with ⟨ha, rfl⟩ | ⟨ha, rfl⟩
      · rcases foldEnsure_apply h2 q with h3 | ⟨h3, h4, _⟩
        · rw [h3, ha]
        · exact h4
      · rcases foldEnsure_apply h2 q with h3 | ⟨h3, h4, _⟩
        · rw [h3, FS.set_apply, if_pos rfl]
        · exact h4
    · exact ih h2 q hq'

theorem foldEnsure_noop {L : List Path} :
    ∀ {fs : FS}, (∀ q ∈ L, fs q = some .dir) → L.foldlM ensureDir fs = .ok fs := by
  induction L with
  | nil => intro fs _; rfl
  | cons a L ih =>
    intro fs h
    rw [List.foldlM_cons]
    have ha : ensureDir fs a = .ok fs := by
      unfold ensureDir
      rw [h a (List.mem_cons_self a L)]
    rw [ha]
    exact ih (fun q hq => h q (List.mem_cons_of_mem a hq))

theorem mem_initsNE {p q : Path} :
    q ∈ p.inits.filter (· ≠ []) ↔ q <+: p ∧ q ≠ [] := by
  rw [List.mem_filter, List.mem_inits]
  simp

theorem create_dir_all_apply {fs fs' : FS} {p : Path}
    (h : create_dir_all fs p = .ok fs') :
    ∀ q, fs' q = fs q ∨ (fs q = none ∧ fs' q = some .dir ∧ q <+: p ∧ q ≠ []) := by
  intro q
  rcases foldEnsure_apply h q with h1 | ⟨h1, h2, h3⟩
  · exact .inl h1
  · exact .inr ⟨h1, h2, mem_initsNE.mp h3⟩

theorem create_dir_all_dirs {fs fs' : FS} {p : Path}
    (h : create_dir_all fs p = .ok fs') : DirsBelow fs' p := by
  intro q hq hne
  exact foldEnsure_dirs h q (mem_initsNE.mpr ⟨hq, hne⟩)

theorem create_dir_all_noop {fs : FS} {p : Path} (h : DirsBelow fs p) :
    create_dir_all fs p = .ok fs :=
  foldEnsure_noop (fun q hq => h q (mem_initsNE.mp hq).1 (mem_initsNE.mp hq).2)

/-- A node present before `create_dir_all` is untouched by it. -/
theorem create_dir_all_preserves {fs fs' : FS} {p q : Path} {n : Node}
    (h : create_dir_all fs p = .ok fs') (hq : fs q = some n) : fs' q = some n := by
  rcases create_dir_all_apply h q with h1 | ⟨h1, _, _, _⟩
  · rw [h1, hq]
  · rw [h1] at hq; cases hq

end DirLemmas

section RenameLemmas

theorem renameNode_ok_of {fs : FS} {src dst : Path} {n : Node}
    (hsrc : fs src = some n) (hpre : ¬ src <+: dst) (hdst : fs dst ≠ some .dir) :
    renameNode fs src dst = .ok ((fs.erase src).set dst n) := by
  have hb : List.isPrefixOf src dst = false := by
    rw [← Bool.not_eq_true]
    exact fun hb => hpre (List.isPrefixOf_iff_prefix.mp hb)
  unfold renameNode
  cases hd : fs dst with
  | none => simp [hsrc, hb, hd]
  | some m =>
    cases m with
    | dir => exact absurd hd hdst
    | file c mo => simp [hsrc, hb, hd]
    | symlink t => simp [hsrc, hb, hd]

theorem renameNode_ok_cases {fs fs' : FS} {src dst : Path}
    (h : renameNode fs src dst = .ok fs') :
    ∃ n, fs src = some n ∧ ¬ src <+: dst ∧ fs dst ≠ some .dir ∧
      fs' = (fs.erase src).set dst n := by
  unfold renameNode at h
  cases hsrc : fs src with
  | none => rw [hsrc] at h; cases h
  | some n =>
    simp only [hsrc] at h
    refine ⟨n, rfl, ?_⟩
    split at h
    · cases h
    · next hb =>
      have hpre : ¬ src <+: dst := fun hp =>
        hb (List.isPrefixOf_iff_prefix.mpr hp)
      cases hd : fs dst with
      | none =>
        simp only [hd] at h
        exact ⟨hpre, by simp [hd], ((Except.ok.injEq _ _).mp h).symm⟩
      | some m =>
        simp only [hd] at h
        cases m with
        | dir => cases h
        | file c mo => exact ⟨hpre, by simp [hd], ((Except.ok.injEq _ _).mp h).symm⟩
        | symlink t => exact ⟨hpre, by simp [hd], ((Except.ok.injEq _ _).mp h).symm⟩

end RenameLemmas

section ReconcileLemmas

theorem existsF_nonlink_true {fs : FS} {p : Path} {n : Node}
    (hn : fs p = some n) (hns : ∀ t, n ≠ .symlink t) :
    existsF fs linkFuel p = true := by
  rw [show linkFuel = 63 + 1 from rfl]
  unfold existsF
  rw [hn]
  cases n with
  | dir => rfl
  | file c m => rfl
  | symlink t => exact absurd rfl (hns t)

theorem isSymlinkF_false_of {fs : FS} {p : Path} {n : Node}
    (hn : fs p = some n) (hns : ∀ t, n ≠ .symlink t) :
    isSymlinkF fs p = false := by
  unfold isSymlinkF
  rw [hn]
  cases n with
  | dir => rfl
  | file c m => rfl
  | symlink t => exact absurd rfl (hns t)

theorem reconcile_symlink {fs : FS} {p t : Path} {ts : Nat}
    (h : fs p = some (.symlink t)) :
    reconcile_existing fs p ts = .ok (fs.erase p) := by
  unfold reconcile_existing
  rw [if_pos (isSymlinkF_true_iff.mpr ⟨t, h⟩)]

theorem reconcile_absent {fs : FS} {p : Path} {ts : Nat} (h : fs p = none) :
    reconcile_existing fs p ts = .ok fs := by
  unfold reconcile_existing
  have h1 : isSymlinkF fs p = false := by unfold isSymlinkF; rw [h]
  have h2 : existsF fs linkFuel p = false := by
    rw [show linkFuel = 63 + 1 from rfl]; unfold existsF; rw [h]
  rw [if_neg (by simp [h1]), if_pos (by simp [h2])]

/-- The backup target path `reconcile_existing` renames an occupant to. -/
def backupPathOf (p : Path) (ts : Nat) : Path :=
  backupDirOf p ++ [backupName ((p.getLast?).getD "config") ts]

theorem reconcile_occupied_of {fs fsb : FS} {p : Path} {ts : Nat} {n : Node}
    (hn : fs p = some n) (hns : ∀ t, n ≠ .symlink t)
    (hcda : create_dir_all fs (backupDirOf p) = .ok fsb)
    (hpre : ¬ p <+: backupPathOf p ts) (hdst : fsb (backupPathOf p ts) ≠ some .dir) :
    reconcile_existing fs p ts = .ok ((fsb.erase p).set (backupPathOf p ts) n) := by
  unfold reconcile_existing
  rw [if_neg (by simp [isSymlinkF_false_of hn hns]),
    if_neg (by simp [existsF_nonlink_true hn hns])]
  simp only [Bind.bind, Except.bind, hcda]
  exact renameNode_ok_of (create_dir_all_preserves hcda hn) hpre hdst

theorem reconcile_occupied_shape {fs fs' : FS} {p : Path} {ts : Nat} {n : Node}
    (hn : fs p = some n) (hns : ∀ t, n ≠ .symlink t)
    (h : reconcile_existing fs p ts = .ok fs') :
    ∃ fsb, create_dir_all fs (backupDirOf p) = .ok fsb ∧
      ¬ p <+: backupPathOf p ts ∧ fsb (backupPathOf p ts) ≠ some .dir ∧
      fs' = (fsb.erase p).set (backupPathOf p ts) n := by
  unfold reconcile_existing at h
  rw [if_neg (by simp [isSymlinkF_false_of hn hns]),
    if_neg (by simp [existsF_nonlink_true hn hns])] at h
  obtain ⟨fsb, h1, h2⟩ := exceptBind_ok h
  obtain ⟨m, hm, hpre, hdst, heq⟩ := renameNode_ok_cases h2
  have : m = n := by
    have hp := create_dir_all_preserves h1 hn
    exact Option.some.inj (hm.symm.trans hp)
  subst this
  exact ⟨fsb, h1, hpre, hdst, heq⟩

end ReconcileLemmas

section LoopLemmas

theorem linkLoop_out {home : Path} {dr : Bool} {ts : Nat} :
    ∀ {L : List RenderedTemplate} {fs s : FS} {out : List Path},
    linkLoop home dr ts fs L = .ok (s, out) →
    out = L.map (fun i => home ++ i.template.destination) := by
  intro L
  induction L with
  | nil =>
    intro fs s out h
    unfold linkLoop at h
    cases h
    rfl
  | cons item rest ih =>
    intro fs s out h
    unfold linkLoop at h
    split at h
    · obtain ⟨⟨fs1, out1⟩, h1, h2⟩ := exceptBind_ok h
      cases h2
      rw [List.map_cons, ih h1]
    · obtain ⟨fs1, h1, h2⟩ := exceptBind_ok h
      obtain ⟨⟨fs2, out2⟩, h3, h4⟩ := exceptBind_ok h2
      cases h4
      rw [List.map_cons, ih h3]

theorem linkLoop_dry {home : Path} {ts : Nat} :
    ∀ (L : List RenderedTemplate) (fs : FS),
    linkLoop home true ts fs L =
      .ok (fs, L.map (fun i => home ++ i.template.destination)) := by
  intro L
  induction L with
  | nil => intro fs; rfl
  | cons item rest ih =>
    intro fs
    unfold linkLoop
    rw [if_pos rfl]
    simp only [Bind.bind, Except.bind, ih fs, List.map_cons]

end LoopLemmas

/-- C3: `link_templates` with `dryRun = true` leaves every filesystem entry
exactly as it was (the returned state is the input state, staging root
included) and returns the destination list `homeRoot / destination` in
manifest order — the same list any successful non-dry-run invocation
returns. -/
theorem dry_run_is_pure_and_agrees (home : Path) (rendered : RenderedSet)
    (ts : Nat) (fs : FS) :
    link_templates home rendered true ts fs =
      .ok (fs, rendered.map (fun i => home ++ i.template.destination)) ∧
    (∀ (ts' : Nat) (fs' s' : FS) (out' : List Path),
      link_templates home rendered false ts' fs' = .ok (s', out') →
      out' = rendered.map (fun i => home ++ i.template.destination)) := by
  constructor
  · unfold link_templates
    simp only [if_pos rfl, Bind.bind, Except.bind, pure]
    exact linkLoop_dry rendered fs
  · intro ts' fs' s' out' h
    unfold link_templates at h
    rw [if_neg (by simp)] at h
    obtain ⟨fs1, _, h2⟩ := exceptBind_ok h
    exact linkLoop_out h2

/-- C4: the occupancy test is link-aware (any present node, including a
dangling symlink, makes it fire); a symlink occupant is removed outright
with no other filesystem change (in particular no backup); a non-symlink
occupant is moved to a timestamped name inside `.dotstrap-backups`, the
sibling of the destination co-located with the destination's parent
directory (independent of any staging root). -/
theorem reconcile_policy (fs : FS) (p t : Path) (ts : Nat) :
    (fs p ≠ none → (existsF fs linkFuel p || isSymlinkF fs p) = true) ∧
    (fs p = some (.symlink t) → reconcile_existing fs p ts = .ok (fs.erase p)) ∧
    (∀ (fs' : FS) (n : Node), fs p = some n → (∀ u, n ≠ .symlink u) →
      reconcile_existing fs p ts = .ok fs' →
      fs' p = none ∧
      fs' (p.dropLast ++ [".dotstrap-backups",
        backupName ((p.getLast?).getD "config") ts]) = some n) := by
  refine ⟨fun h => occupied_iff.mpr h, fun h => reconcile_symlink h, ?_⟩
  intro fs' n hn hns h
  obtain ⟨fsb, hcda, hpre, hdst, heq⟩ := reconcile_occupied_shape hn hns h
  have hne : p ≠ backupPathOf p ts := fun habs => hpre (habs ▸ List.prefix_refl p)
  constructor
  · rw [heq, FS.set_apply, if_neg hne, FS.erase_apply, if_pos rfl]
  · rw [show p.dropLast ++ [".dotstrap-backups",
        backupName ((p.getLast?).getD "config") ts] = backupPathOf p ts from by
      simp [backupPathOf, backupDirOf]]
    rw [heq, FS.set_apply, if_pos rfl]

/-- Observe the node at one path of a `reconcile_existing` result. -/
def reconAt (r : Except FsError FS) (p : Path) : Option (Option Node) :=
  r.toOption.map (fun s => s p)

/-- Concrete witness filesystem: a home directory `h` containing a
directory `a` with one foreign file `f`. -/
def fsW : FS := fun p =>
  if p = ["h"] then some .dir
  else if p = ["h", "a"] then some .dir
  else if p = ["h", "a", "f"] then some (.file "old" none)
  else none

/-- Concrete witness rendered set: one template rendered to "new",
destined for `a/f` under the home root. -/
def rsW : RenderedSet := [⟨⟨["t"], ["a", "f"], none⟩, "new"⟩]

theorem dry_run_is_pure_and_agrees_witness :
    link_templates ["h"] rsW true 3 fsW = .ok (fsW, [["h", "a", "f"]]) ∧
    Except.map (fun x => x.2) (link_templates ["h"] rsW false 5 fsW) =
      .ok [["h", "a", "f"]] := by
  have h := dry_run_is_pure_and_agrees ["h"] rsW 3 fsW
  constructor
  · exact h.1
  · cases hw : link_templates ["h"] rsW false 5 fsW with
    | error e =>
      have hok : (link_templates ["h"] rsW false 5 fsW).isOk = true := by decide
      rw [hw] at hok
      exact Bool.noConfusion hok
    | ok pr =>
      have h2 := h.2 5 fsW pr.1 pr.2 (by rw [hw])
      simp only [Except.map]
      rw [h2]
      rfl

theorem reconcile_policy_witness :
    ((existsF fsW linkFuel ["h", "a", "f"] || isSymlinkF fsW ["h", "a", "f"]) = true) ∧
    reconAt (reconcile_existing fsW ["h", "a", "f"] 5) ["h", "a", "f"] = some none ∧
    reconAt (reconcile_existing fsW ["h", "a", "f"] 5)
      ["h", "a", ".dotstrap-backups", "f.5.bak"] = some (some (.file "old" none)) := by
  have h := reconcile_policy fsW ["h", "a", "f"] ["x"] 5
  refine ⟨h.1 (by decide), ?_, ?_⟩ <;>
  · cases hw : reconcile_existing fsW ["h", "a", "f"] 5 with
    | error e =>
      have hok : (reconcile_existing fsW ["h", "a", "f"] 5).isOk = true := by decide
      rw [hw] at hok
      exact Bool.noConfusion hok
    | ok s =>
      have h3 := h.2.2 s (.file "old" none) (by decide) (fun u hu => nomatch hu) hw
      simp only [reconAt, Except.toOption, Option.map]
      rw [show (["h", "a", "f"] : Path).dropLast = ["h", "a"] from rfl] at h3
      first
      | exact congrArg some h3.1
      | exact congrArg some h3.2

/-- Rendered set exhibiting backup-name capture: the first destination sits
inside the sibling backup directory of the second destination, under
exactly the name the second destination's backup takes at timestamp 5. -/
def rsX : RenderedSet :=
  [⟨⟨["t1"], ["a", ".dotstrap-backups", "f.5.bak"], none⟩, "one"⟩,
   ⟨⟨["t2"], ["a", "f"], none⟩, "two"⟩]

/-- C1 counterexample: there is a rendered set and home root for which a
first non-dry-run `link_templates` succeeds yet leaves its first
destination occupied by a plain file rather than a symlink (the second
destination's backup rename lands exactly on the managed link), and a
second run consequently creates a fresh backup directory that the first
run's final state did not contain — the states after the two runs differ. -/
theorem link_twice_not_idempotent :
    stateAt (link_templates ["h"] rsX false 5 fsW)
      ["h", "a", ".dotstrap-backups", "f.5.bak"] = some (some (.file "old" none)) ∧
    ((link_templates ["h"] rsX false 5 fsW).bind
        (fun pr => link_templates ["h"] rsX false 7 pr.1)).toOption.map
        (fun pr => pr.1 ["h", "a", ".dotstrap-backups", ".dotstrap-backups"]) =
      some (some .dir) ∧
    stateAt (link_templates ["h"] rsX false 5 fsW)
      ["h", "a", ".dotstrap-backups", ".dotstrap-backups"] = some none := by
  decide

/-- C2 counterexample: the backup name depends only on the file name and the
unix second, so two runs in the same second against the same destination
reuse one backup name, and the second run's `fs::rename` replaces the first
backup (original bytes "old") with the new occupant's bytes "other" — the
naming is not collision-free across repeated runs. -/
theorem backup_collision_same_second :
    stateAt (link_templates ["h"] rsW false 5 fsW)
      ["h", "a", ".dotstrap-backups", "f.5.bak"] = some (some (.file "old" none)) ∧
    ((link_templates ["h"] rsW false 5 fsW).bind (fun pr =>
        link_templates ["h"] rsW false 5
          (pr.1.set ["h", "a", "f"] (.file "other" none)))).toOption.map
      (fun pr => pr.1 ["h", "a", ".dotstrap-backups", "f.5.bak"]) =
      some (some (.file "other" none)) := by
  decide

section Idempotence

/-- A destination that keeps clear of the linker's own bookkeeping paths:
prefix-incomparable with the staging subtree `.dotstrap/generated`, and
mentioning no `.dotstrap-backups` component. -/
def GoodDest (r : Path) : Prop :=
  ¬ r <+: stageRel ∧ ¬ stageRel <+: r ∧ ".dotstrap-backups" ∉ r

/-- The rendered set's destinations are pairwise distinct and all keep
clear of the linker's bookkeeping paths. -/
def Separated (rendered : RenderedSet) : Prop :=
  (rendered.map (fun i => i.template.destination)).Nodup ∧
  ∀ item ∈ rendered, GoodDest item.template.destination

/-- No staged path holds a pre-existing symlink (a symlink there would
redirect the staged write elsewhere). -/
def CleanStage (home : Path) (fs : FS) (rendered : RenderedSet) : Prop :=
  ∀ item ∈ rendered, isSymlinkF fs (stagePathOf home item) = false

/-- Everything a completed link leaves in place for one rendered template:
the destination symlinks to the staged path, the staged path holds the
rendered file with its mode, and both parent chains are directories. -/
def ManagedAt (home : Path) (fs : FS) (item : RenderedTemplate) : Prop :=
  fs (destOf home item) = some (.symlink (stagePathOf home item)) ∧
  fs (stagePathOf home item) = some (stagedNode item) ∧
  DirsBelow fs (destOf home item).dropLast ∧
  DirsBelow fs (stagePathOf home item).dropLast

theorem GoodDest.ne_nil {r : Path} (h : GoodDest r) : r ≠ [] :=
  fun hr => h.1 (hr ▸ List.nil_prefix)

theorem GoodDest.not_prefix_stage_append {r : Path} (h : GoodDest r) (x : Path) :
    ¬ r <+: stageRel ++ x := by
  intro hp
  rcases List.prefix_or_prefix_of_prefix hp (List.prefix_append stageRel x) with h1 | h2
  · exact h.1 h1
  · exact h.2.1 h2

theorem GoodDest.ne_stage_append {r : Path} (h : GoodDest r) (x : Path) :
    r ≠ stageRel ++ x :=
  fun he => h.not_prefix_stage_append x (by rw [he])

theorem GoodDest.backup_notMem_stage {r : Path} (h : GoodDest r) :
    ".dotstrap-backups" ∉ stageRel ++ r := by
  intro hm
  rcases List.mem_append.mp hm with h1 | h2
  · have : (".dotstrap-backups" : String) ∉ stageRel := by decide
    exact this h1
  · exact h.2.2 h2

theorem GoodDest.not_prefix_stageRel_self {r : Path} (h : GoodDest r) :
    ¬ r <+: stageRel := h.1

/-- Destinations are injective in the relative path. -/
theorem destOf_inj {home r1 r2 : Path} (h : home ++ r1 = home ++ r2) : r1 = r2 :=
  List.append_cancel_left h

/-- A destination never coincides with any staging-side path. -/
theorem dest_ne_stageSide {home r x : Path} (h : GoodDest r) :
    home ++ r ≠ home ++ (stageRel ++ x) :=
  fun he => h.ne_stage_append x (List.append_cancel_left he)

/-- A destination is never a prefix of any staging-side path. -/
theorem dest_not_prefix_stageSide {home r x : Path} (h : GoodDest r) :
    ¬ home ++ r <+: home ++ (stageRel ++ x) := by
  intro hp
  exact h.not_prefix_stage_append x ((List.prefix_append_right_inj home).mp hp)

/-- A path carrying a `.dotstrap-backups` component differs from every
destination and every staging-side path. -/
theorem backupish_ne {home w z : Path} (hw : ".dotstrap-backups" ∈ w)
    (hz : ".dotstrap-backups" ∉ z) : home ++ w ≠ home ++ z :=
  fun he => hz (List.append_cancel_left he ▸ hw)

theorem FS.set_preserves_ne {fs : FS} {m q : Path} {n : Node} (hne : q ≠ m) :
    (fs.set m n) q = fs q := by rw [FS.set_apply, if_neg hne]

theorem FS.erase_preserves_ne {fs : FS} {m q : Path} (hne : q ≠ m) :
    (fs.erase m) q = fs q := by rw [FS.erase_apply, if_neg hne]

theorem copyTo_ok_shape {fs fs' : FS} {p : Path} {c : String}
    (hns : ∀ t, fs p ≠ some (.symlink t)) (h : copyTo fs p c = .ok fs') :
    fs p ≠ some .dir ∧ fs' = fs.set p (.file c none) := by
  cases hd : fs p with
  | none =>
    have hnd : fs p ≠ some .dir := by rw [hd]; exact fun habs => nomatch habs
    rw [copyTo_ok_of hns hnd] at h
    exact ⟨(fun habs => nomatch habs), ((Except.ok.injEq _ _).mp h).symm⟩
  | some n =>
    cases n with
    | dir =>
      rw [copyTo_dir hd] at h
      cases h
    | file c' mo =>
      have hnd : fs p ≠ some .dir := by rw [hd]; exact fun habs => nomatch habs
      rw [copyTo_ok_of hns hnd] at h
      exact ⟨(fun habs => nomatch habs), ((Except.ok.injEq _ _).mp h).symm⟩
    | symlink t => exact absurd hd (hns t)

theorem DirsBelow.preserved_cda {fs fs' : FS} {z p : Path} (hd : DirsBelow fs z)
    (h : create_dir_all fs p = .ok fs') : DirsBelow fs' z := by
  intro q hq hne
  rcases create_dir_all_apply h q with h1 | ⟨_, h2, _, _⟩
  · rw [h1]; exact hd q hq hne
  · exact h2

theorem DirsBelow.set_of_node {fs : FS} {z m : Path} {n : Node}
    (hd : DirsBelow fs z) (hm : fs m ≠ some .dir) : DirsBelow (fs.set m n) z := by
  intro q hq hne
  rw [FS.set_apply]
  split
  · next he =>
    subst he
    exact absurd (hd q hq hne) hm
  · exact hd q hq hne

theorem DirsBelow.erase_of_node {fs : FS} {z m : Path}
    (hd : DirsBelow fs z) (hm : fs m ≠ some .dir) : DirsBelow (fs.erase m) z := by
  intro q hq hne
  rw [FS.erase_apply]
  split
  · next he =>
    subst he
    exact absurd (hd q hq hne) hm
  · exact hd q hq hne

theorem nonlink_cda {fs fs' : FS} {p q : Path} (h : create_dir_all fs p = .ok fs')
    (hq : isSymlinkF fs q = false) : isSymlinkF fs' q = false := by
  rcases create_dir_all_apply h q with h1 | ⟨_, h2, _, _⟩
  · unfold isSymlinkF at hq ⊢; rw [h1]; exact hq
  · unfold isSymlinkF; rw [h2]

theorem ManagedAt.after_cda {home : Path} {fs fs' : FS} {item : RenderedTemplate} {p : Path}
    (hm : ManagedAt home fs item) (h : create_dir_all fs p = .ok fs') :
    ManagedAt home fs' item :=
  ⟨create_dir_all_preserves h hm.1, create_dir_all_preserves h hm.2.1,
    hm.2.2.1.preserved_cda h, hm.2.2.2.preserved_cda h⟩

theorem linkOne_split {home : Path} {ts : Nat} {fs fs' : FS} {item : RenderedTemplate}
    (h : linkOne home ts fs item = .ok fs') :
    ∃ fs1 fs2 fs3 fs4 fs5,
      create_dir_all fs (destOf home item).dropLast = .ok fs1 ∧
      ((fs1 (destOf home item) ≠ none ∧
          reconcile_existing fs1 (destOf home item) ts = .ok fs2) ∨
        (fs1 (destOf home item) = none ∧ fs2 = fs1)) ∧
      create_dir_all fs2 (stagePathOf home item).dropLast = .ok fs3 ∧
      copyTo fs3 (stagePathOf home item) item.content = .ok fs4 ∧
      apply_mode fs4 (stagePathOf home item) item.template.mode = .ok fs5 ∧
      create_symlink fs5 (stagePathOf home item) (destOf home item) = .ok fs' := by
  unfold linkOne at h
  obtain ⟨fs1, h1, h⟩ := exceptBind_ok h
  obtain ⟨fs2, h2, h⟩ := exceptBind_ok h
  obtain ⟨fs3, h3, h⟩ := exceptBind_ok h
  obtain ⟨fs4, h4, h⟩ := exceptBind_ok h
  obtain ⟨fs5, h5, h⟩ := exceptBind_ok h
  refine ⟨fs1, fs2, fs3, fs4, fs5, ?_⟩
  unfold reconcileIfOccupied at h2
  by_cases hc : fs1 (destOf home item) = none
  · have hcond : (existsF fs1 linkFuel (home ++ item.template.destination) ||
        isSymlinkF fs1 (home ++ item.template.destination)) = false := by
      rw [← Bool.not_eq_true]
      intro habs
      exact occupied_iff.mp habs hc
    rw [hcond] at h2
    simp only [Bool.false_eq_true, if_false, pure] at h2
    exact ⟨h1, .inr ⟨hc, ((Except.ok.injEq _ _).mp h2).symm⟩, h3, h4, h5, h⟩
  · have hcond : (existsF fs1 linkFuel (home ++ item.template.destination) ||
        isSymlinkF fs1 (home ++ item.template.destination)) = true :=
      occupied_iff.mpr hc
    rw [hcond] at h2
    simp only [if_true] at h2
    exact ⟨h1, .inl ⟨hc, h2⟩, h3, h4, h5, h⟩

theorem nonlink_iff {fs : FS} {p : Path} :
    isSymlinkF fs p = false ↔ ∀ t, fs p ≠ some (.symlink t) := by
  unfold isSymlinkF
  cases h : fs p with
  | none => simp
  | some n => cases n <;> simp

theorem nonlink_set {fs : FS} {q m : Path} {n : Node}
    (hn : ∀ t, n ≠ .symlink t) (hq : isSymlinkF fs q = false) :
    isSymlinkF (fs.set m n) q = false := by
  rw [nonlink_iff] at hq ⊢
  intro t
  rw [FS.set_apply]
  split
  · intro habs
    exact hn t ((Option.some.injEq _ _).mp habs)
  · exact hq t

theorem nonlink_erase {fs : FS} {q m : Path} (hq : isSymlinkF fs q = false) :
    isSymlinkF (fs.erase m) q = false := by
  rw [nonlink_iff] at hq ⊢
  intro t
  rw [FS.erase_apply]
  split
  · exact fun habs => nomatch habs
  · exact hq t

theorem ne_of_prefix_dropLast {p q : Path} (hp : p ≠ []) (hq : q <+: p.dropLast) :
    q ≠ p := by
  intro he
  subst he
  have h1 := hq.length_le
  rw [List.length_dropLast] at h1
  have h2 : 0 < q.length := List.length_pos.mpr hp
  omega

theorem DirsBelow.erase_of_ne {fs : FS} {z m : Path}
    (hd : DirsBelow fs z) (hm : ∀ q, q <+: z → q ≠ m) : DirsBelow (fs.erase m) z := by
  intro q hq hne
  rw [FS.erase_apply, if_neg (hm q hq)]
  exact hd q hq hne

theorem DirsBelow.set_of_ne {fs : FS} {z m : Path} {n : Node}
    (hd : DirsBelow fs z) (hm : ∀ q, q <+: z → q ≠ m) : DirsBelow (fs.set m n) z := by
  intro q hq hne
  rw [FS.set_apply, if_neg (hm q hq)]
  exact hd q hq hne

theorem stagePathOf_eq (home : Path) (item : RenderedTemplate) :
    stagePathOf home item = home ++ (stageRel ++ item.template.destination) := by
  unfold stagePathOf
  rw [List.append_assoc]

theorem destDropLast_eq {home : Path} {item : RenderedTemplate}
    (h : item.template.destination ≠ []) :
    (destOf home item).dropLast = home ++ item.template.destination.dropLast :=
  List.dropLast_append_of_ne_nil home h

theorem spDropLast_eq {home : Path} {item : RenderedTemplate}
    (h : item.template.destination ≠ []) :
    (stagePathOf home item).dropLast =
      home ++ (stageRel ++ item.template.destination.dropLast) := by
  rw [stagePathOf_eq]
  rw [List.dropLast_append_of_ne_nil home (by
    intro habs
    exact h (List.append_eq_nil.mp habs).2)]
  rw [List.dropLast_append_of_ne_nil stageRel h]

theorem dest_ne_sp {home : Path} {item : RenderedTemplate}
    (hg : GoodDest item.template.destination) :
    destOf home item ≠ stagePathOf home item := by
  rw [stagePathOf_eq]
  exact dest_ne_stageSide hg

theorem sp_ne_dest {home : Path} {item : RenderedTemplate}
    (hg : GoodDest item.template.destination) :
    stagePathOf home item ≠ destOf home item :=
  fun he => dest_ne_sp hg he.symm

/-- Running the link step on one template establishes its managed state,
provided the destination keeps clear of bookkeeping paths and the staged
path held no pre-existing symlink. -/
theorem linkOne_establishes {home : Path} {ts : Nat} {fs fs' : FS}
    {item : RenderedTemplate} (hg : GoodDest item.template.destination)
    (hcl : isSymlinkF fs (stagePathOf home item) = false)
    (h : linkOne home ts fs item = .ok fs') :
    ManagedAt home fs' item := by
  obtain ⟨fs1, fs2, fs3, fs4, fs5, h1, h2, h3, h4, h5, h6⟩ := linkOne_split h
  have hr : item.template.destination ≠ [] := hg.ne_nil
  have hdsp : destOf home item ≠ stagePathOf home item := dest_ne_sp hg
  have hspd : stagePathOf home item ≠ destOf home item := sp_ne_dest hg
  -- after create_dir_all of the destination parent
  have a1 : DirsBelow fs1 (destOf home item).dropLast := create_dir_all_dirs h1
  have hcl1 : isSymlinkF fs1 (stagePathOf home item) = false := nonlink_cda h1 hcl
  -- after the guarded reconcile
  have hstep2 : fs2 (destOf home item) = none ∧
      DirsBelow fs2 (destOf home item).dropLast ∧
      isSymlinkF fs2 (stagePathOf home item) = false := by
    rcases h2 with ⟨hocc, hrec⟩ | ⟨hnone, rfl⟩
    · cases hn : fs1 (destOf home item) with
      | none => exact absurd hn hocc
      | some n =>
        cases n with
        | symlink t =>
          rw [reconcile_symlink hn] at hrec
          have hfs2 : fs2 = fs1.erase (destOf home item) :=
            ((Except.ok.injEq _ _).mp hrec).symm
          subst hfs2
          refine ⟨by rw [FS.erase_apply, if_pos rfl], ?_, nonlink_erase hcl1⟩
          exact a1.erase_of_node (by rw [hn]; exact fun habs => nomatch habs)
        | dir =>
          obtain ⟨fsb, hcdab, hpreb, hdstb, hfs2⟩ :=
            reconcile_occupied_shape hn (fun t => by exact fun habs => nomatch habs) hrec
          subst hfs2
          have hdb : (destOf home item) ≠
              backupPathOf (destOf home item) ts :=
            fun he => hpreb (he ▸ List.prefix_refl _)
          refine ⟨?_, ?_, ?_⟩
          · rw [FS.set_apply, if_neg hdb, FS.erase_apply, if_pos rfl]
          · exact ((a1.preserved_cda hcdab).erase_of_ne
              (fun q hq => ne_of_prefix_dropLast
                (by
                  intro habs
                  exact hr (List.append_eq_nil.mp habs).2) hq)).set_of_node
              (by rw [FS.erase_apply]; split
                  · exact fun habs => nomatch habs
                  · exact hdstb)
          · exact nonlink_set (fun t => by exact fun habs => nomatch habs)
              (nonlink_erase (nonlink_cda hcdab hcl1))
        | file c mo =>
          obtain ⟨fsb, hcdab, hpreb, hdstb, hfs2⟩ :=
            reconcile_occupied_shape hn (fun t => by exact fun habs => nomatch habs) hrec
          subst hfs2
          have hdb : (destOf home item) ≠
              backupPathOf (destOf home item) ts :=
            fun he => hpreb (he ▸ List.prefix_refl _)
          refine ⟨?_, ?_, ?_⟩
          · rw [FS.set_apply, if_neg hdb, FS.erase_apply, if_pos rfl]
          · exact ((a1.preserved_cda hcdab).erase_of_ne
              (fun q hq => ne_of_prefix_dropLast
                (by
                  intro habs
                  exact hr (List.append_eq_nil.mp habs).2) hq)).set_of_node
              (by rw [FS.erase_apply]; split
                  · exact fun habs => nomatch habs
                  · exact hdstb)
          · exact nonlink_set (fun t => by exact fun habs => nomatch habs)
              (nonlink_erase (nonlink_cda hcdab hcl1))
    · exact ⟨hnone, a1, hcl1⟩
  obtain ⟨b1, b2, b3⟩ := hstep2
  -- after create_dir_all of the staging parent
  have c1 : DirsBelow fs3 (stagePathOf home item).dropLast := create_dir_all_dirs h3
  have c2 : DirsBelow fs3 (destOf home item).dropLast := b2.preserved_cda h3
  have c3 : fs3 (destOf home item) = none := by
    rcases create_dir_all_apply h3 (destOf home item) with he | ⟨_, _, hpre, _⟩
    · rw [he, b1]
    · exfalso
      rw [spDropLast_eq hr] at hpre
      exact hg.not_prefix_stage_append item.template.destination.dropLast
        ((List.prefix_append_right_inj home).mp hpre)
  have c4 : isSymlinkF fs3 (stagePathOf home item) = false := nonlink_cda h3 b3
  -- after the staged copy
  obtain ⟨d0, d1⟩ := copyTo_ok_shape (nonlink_iff.mp c4) h4
  subst d1
  have d2 : (fs3.set (stagePathOf home item) (.file item.content none))
      (stagePathOf home item) = some (.file item.content none) := by
    rw [FS.set_apply, if_pos rfl]
  have d3 : (fs3.set (stagePathOf home item) (.file item.content none))
      (destOf home item) = none := by
    rw [FS.set_apply, if_neg hdsp, c3]
  have d4 : DirsBelow (fs3.set (stagePathOf home item) (.file item.content none))
      (destOf home item).dropLast := c2.set_of_node d0
  have d5 : DirsBelow (fs3.set (stagePathOf home item) (.file item.content none))
      (stagePathOf home item).dropLast := c1.set_of_node d0
  -- after apply_mode
  have hstep5 : fs5 (stagePathOf home item) = some (stagedNode item) ∧
      fs5 (destOf home item) = none ∧
      DirsBelow fs5 (destOf home item).dropLast ∧
      DirsBelow fs5 (stagePathOf home item).dropLast := by
    cases hm : item.template.mode with
    | none =>
      rw [hm, apply_mode_none] at h5
      have hfs5 : fs5 = fs3.set (stagePathOf home item) (.file item.content none) :=
        ((Except.ok.injEq _ _).mp h5).symm
      subst hfs5
      exact ⟨by rw [d2]; unfold stagedNode; rw [hm], d3, d4, d5⟩
    | some m =>
      rw [hm, apply_mode_file d2] at h5
      have hfs5 : fs5 = (fs3.set (stagePathOf home item)
          (.file item.content none)).set (stagePathOf home item)
          (.file item.content (some m)) :=
        ((Except.ok.injEq _ _).mp h5).symm
      subst hfs5
      rw [FS.set_set]
      refine ⟨?_, ?_, ?_, ?_⟩
      · rw [FS.set_apply, if_pos rfl]
        unfold stagedNode
        rw [hm]
      · rw [FS.set_apply, if_neg hdsp, c3]
      · exact c2.set_of_node d0
      · exact c1.set_of_node d0
  obtain ⟨e1, e2, e3, e4⟩ := hstep5
  -- after the final symlink
  rw [create_symlink_ok e2] at h6
  have hfs' : fs' = fs5.set (destOf home item)
      (.symlink (stagePathOf home item)) := ((Except.ok.injEq _ _).mp h6).symm
  subst hfs'
  refine ⟨?_, ?_, ?_, ?_⟩
  · rw [FS.set_apply, if_pos rfl]
  · rw [FS.set_apply, if_neg hspd, e1]
  · exact e3.set_of_node (by rw [e2]; exact fun habs => nomatch habs)
  · exact e4.set_of_node (by rw [e2]; exact fun habs => nomatch habs)

theorem prefix_dropLast_of_strict {q p : Path} (h : q <+: p) (hne : q ≠ p) :
    q <+: p.dropLast := by
  obtain ⟨s, rfl⟩ := h
  cases s with
  | nil => simp at hne
  | cons a s =>
    rw [List.dropLast_append_of_ne_nil q (by simp)]
    exact List.prefix_append q _

theorem backupPathOf_append (home : Path) {r : Path} (hr : r ≠ []) (ts : Nat) :
    ∃ nm, backupPathOf (home ++ r) ts =
      home ++ (r.dropLast ++ [".dotstrap-backups", nm]) := by
  refine ⟨backupName (((home ++ r).getLast?).getD "config") ts, ?_⟩
  unfold backupPathOf backupDirOf
  rw [List.dropLast_append_of_ne_nil home hr]
  simp [List.append_assoc]

theorem ManagedAt.set_pres {home : Path} {fs : FS} {item : RenderedTemplate}
    {m : Path} {n : Node} (hm : ManagedAt home fs item)
    (h1 : m ≠ destOf home item) (h2 : m ≠ stagePathOf home item)
    (h3 : fs m ≠ some .dir) : ManagedAt home (fs.set m n) item := by
  refine ⟨?_, ?_, hm.2.2.1.set_of_node h3, hm.2.2.2.set_of_node h3⟩
  · rw [FS.set_apply, if_neg (fun he => h1 he.symm)]
    exact hm.1
  · rw [FS.set_apply, if_neg (fun he => h2 he.symm)]
    exact hm.2.1

theorem ManagedAt.erase_pres {home : Path} {fs : FS} {item : RenderedTemplate}
    {m : Path} (hm : ManagedAt home fs item)
    (h1 : m ≠ destOf home item) (h2 : m ≠ stagePathOf home item)
    (h3 : ∀ q, q <+: (destOf home item).dropLast → q ≠ m)
    (h4 : ∀ q, q <+: (stagePathOf home item).dropLast → q ≠ m) :
    ManagedAt home (fs.erase m) item := by
  refine ⟨?_, ?_, hm.2.2.1.erase_of_ne h3, hm.2.2.2.erase_of_ne h4⟩
  · rw [FS.erase_apply, if_neg (fun he => h1 he.symm)]
    exact hm.1
  · rw [FS.erase_apply, if_neg (fun he => h2 he.symm)]
    exact hm.2.1

theorem create_symlink_shape {fs fs' : FS} {s d : Path}
    (h : create_symlink fs s d = .ok fs') :
    fs d = none ∧ fs' = fs.set d (.symlink s) := by
  cases hd : fs d with
  | none =>
    rw [create_symlink_ok hd] at h
    exact ⟨rfl, ((Except.ok.injEq _ _).mp h).symm⟩
  | some n =>
    rw [create_symlink_occupied hd] at h
    cases h

/-- The link step for one template leaves the managed state of every other,
distinct, well-separated destination untouched (the staged path of the
stepped template must hold no pre-existing symlink, else the staged write
could be redirected). -/
theorem linkOne_preserves_managed {home : Path} {ts : Nat} {fs fs' : FS}
    {item prev : RenderedTemplate}
    (hgc : GoodDest item.template.destination)
    (hgp : GoodDest prev.template.destination)
    (hne : item.template.destination ≠ prev.template.destination)
    (hcl : isSymlinkF fs (stagePathOf home item) = false)
    (hm : ManagedAt home fs prev)
    (h : linkOne home ts fs item = .ok fs') :
    ManagedAt home fs' prev := by
  obtain ⟨fs1, fs2, fs3, fs4, fs5, h1, h2, h3, h4, h5, h6⟩ := linkOne_split h
  have hrc : item.template.destination ≠ [] := hgc.ne_nil
  have hrp : prev.template.destination ≠ [] := hgp.ne_nil
  by_cases hnest : item.template.destination <+: prev.template.destination
  · -- the current destination sits strictly above the previous one:
    -- its staged path is then a directory, and the staged copy fails,
    -- contradicting success of the step
    exfalso
    have hsp : fs (stagePathOf home item) = some .dir := by
      have hq : stagePathOf home item <+: (stagePathOf home prev).dropLast := by
        rw [stagePathOf_eq, spDropLast_eq hrp]
        exact (List.prefix_append_right_inj home).mpr
          ((List.prefix_append_right_inj stageRel).mpr
            (prefix_dropLast_of_strict hnest hne))
      exact hm.2.2.2 (stagePathOf home item) hq (by
        rw [stagePathOf_eq]
        intro habs
        have := List.append_eq_nil.mp habs
        exact hrc (List.append_eq_nil.mp this.2).2)
    have hsp1 : fs1 (stagePathOf home item) = some .dir :=
      create_dir_all_preserves h1 hsp
    have hsp2 : fs2 (stagePathOf home item) = some .dir := by
      rcases h2 with ⟨hocc, hrec⟩ | ⟨_, rfl⟩
      · cases hn : fs1 (destOf home item) with
        | none => exact absurd hn hocc
        | some n =>
          cases n with
          | symlink t =>
            rw [reconcile_symlink hn] at hrec
            have hfs2 : fs2 = fs1.erase (destOf home item) :=
              ((Except.ok.injEq _ _).mp hrec).symm
            subst hfs2
            rw [FS.erase_apply, if_neg (sp_ne_dest hgc), hsp1]
          | dir =>
            obtain ⟨fsb, hcdab, _, hdstb, hfs2⟩ :=
              reconcile_occupied_shape hn (fun t habs => nomatch habs) hrec
            subst hfs2
            have hb : fsb (stagePathOf home item) = some .dir :=
              create_dir_all_preserves hcdab hsp1
            rw [FS.set_apply, if_neg (fun he => hdstb (by rw [← he]; exact hb)),
              FS.erase_apply, if_neg (sp_ne_dest hgc), hb]
          | file c mo =>
            obtain ⟨fsb, hcdab, _, hdstb, hfs2⟩ :=
              reconcile_occupied_shape hn (fun t habs => nomatch habs) hrec
            subst hfs2
            have hb : fsb (stagePathOf home item) = some .dir :=
              create_dir_all_preserves hcdab hsp1
            rw [FS.set_apply, if_neg (fun he => hdstb (by rw [← he]; exact hb)),
              FS.erase_apply, if_neg (sp_ne_dest hgc), hb]
      · exact hsp1
    have hsp3 : fs3 (stagePathOf home item) = some .dir :=
      create_dir_all_preserves h3 hsp2
    rw [copyTo_dir hsp3] at h4
    cases h4
  · -- the generic, separated case: every touched path avoids the
    -- previous template's managed paths
    have i1 : destOf home item ≠ destOf home prev := by
      unfold destOf
      intro he
      exact hne (destOf_inj he)
    have i2 : destOf home item ≠ stagePathOf home prev := by
      rw [stagePathOf_eq]
      exact dest_ne_stageSide hgc
    have i3 : ∀ q, q <+: (destOf home prev).dropLast → q ≠ destOf home item := by
      intro q hq he
      subst he
      rw [destDropLast_eq hrp] at hq
      have := (List.prefix_append_right_inj home).mp hq
      exact hnest (this.trans (List.dropLast_prefix _))
    have i4 : ∀ q, q <+: (stagePathOf home prev).dropLast →
        q ≠ destOf home item := by
      intro q hq he
      subst he
      rw [spDropLast_eq hrp] at hq
      exact hgc.not_prefix_stage_append prev.template.destination.dropLast
        ((List.prefix_append_right_inj home).mp hq)
    have i5 : stagePathOf home item ≠ destOf home prev := by
      rw [stagePathOf_eq]
      intro he
      exact hgp.ne_stage_append item.template.destination
        (destOf_inj he).symm
    have i6 : stagePathOf home item ≠ stagePathOf home prev := by
      rw [stagePathOf_eq, stagePathOf_eq]
      intro he
      exact hne (List.append_cancel_left (List.append_cancel_left he))
    have m1 : ManagedAt home fs1 prev := hm.after_cda h1
    have cl1 : isSymlinkF fs1 (stagePathOf home item) = false := nonlink_cda h1 hcl
    have hstep2 : ManagedAt home fs2 prev ∧
        isSymlinkF fs2 (stagePathOf home item) = false := by
      rcases h2 with ⟨hocc, hrec⟩ | ⟨_, rfl⟩
      · cases hn : fs1 (destOf home item) with
        | none => exact absurd hn hocc
        | some n =>
          cases n with
          | symlink t =>
            rw [reconcile_symlink hn] at hrec
            have hfs2 : fs2 = fs1.erase (destOf home item) :=
              ((Except.ok.injEq _ _).mp hrec).symm
            subst hfs2
            exact ⟨m1.erase_pres i1 i2 i3 i4, nonlink_erase cl1⟩
          | dir =>
            obtain ⟨fsb, hcdab, _, hdstb, hfs2⟩ :=
              reconcile_occupied_shape hn (fun t habs => nomatch habs) hrec
            subst hfs2
            obtain ⟨nm, hbp⟩ := backupPathOf_append home hrc ts
            have hb1 : backupPathOf (destOf home item) ts ≠ destOf home prev := by
              rw [show destOf home item =
                home ++ item.template.destination from rfl, hbp]
              exact backupish_ne (by simp) hgp.2.2
            have hb2 : backupPathOf (destOf home item) ts ≠
                stagePathOf home prev := by
              rw [show destOf home item =
                home ++ item.template.destination from rfl, hbp, stagePathOf_eq]
              exact backupish_ne (by simp) hgp.backup_notMem_stage
            have me : ManagedAt home (fsb.erase (destOf home item)) prev :=
              (m1.after_cda hcdab).erase_pres i1 i2 i3 i4
            refine ⟨me.set_pres hb1 hb2 ?_, ?_⟩
            · rw [FS.erase_apply]
              split
              · exact fun habs => nomatch habs
              · exact hdstb
            · exact nonlink_set (fun t habs => nomatch habs)
                (nonlink_erase (nonlink_cda hcdab cl1))
          | file c mo =>
            obtain ⟨fsb, hcdab, _, hdstb, hfs2⟩ :=
              reconcile_occupied_shape hn (fun t habs => nomatch habs) hrec
            subst hfs2
            obtain ⟨nm, hbp⟩ := backupPathOf_append home hrc ts
            have hb1 : backupPathOf (destOf home item) ts ≠ destOf home prev := by
              rw [show destOf home item =
                home ++ item.template.destination from rfl, hbp]
              exact backupish_ne (by simp) hgp.2.2
            have hb2 : backupPathOf (destOf home item) ts ≠
                stagePathOf home prev := by
              rw [show destOf home item =
                home ++ item.template.destination from rfl, hbp, stagePathOf_eq]
              exact backupish_ne (by simp) hgp.backup_notMem_stage
            have me : ManagedAt home (fsb.erase (destOf home item)) prev :=
              (m1.after_cda hcdab).erase_pres i1 i2 i3 i4
            refine ⟨me.set_pres hb1 hb2 ?_, ?_⟩
            · rw [FS.erase_apply]
              split
              · exact fun habs => nomatch habs
              · exact hdstb
            · exact nonlink_set (fun t habs => nomatch habs)
                (nonlink_erase (nonlink_cda hcdab cl1))
      · exact ⟨m1, cl1⟩
    obtain ⟨m2, cl2⟩ := hstep2
    have m3 : ManagedAt home fs3 prev := m2.after_cda h3
    have cl3 : isSymlinkF fs3 (stagePathOf home item) = false := nonlink_cda h3 cl2
    obtain ⟨d0, d1⟩ := copyTo_ok_shape (nonlink_iff.mp cl3) h4
    subst d1
    have m4 : ManagedAt home
        (fs3.set (stagePathOf home item) (.file item.content none)) prev :=
      m3.set_pres i5 i6 d0
    have hstep5 : ManagedAt home fs5 prev := by
      cases hmode : item.template.mode with
      | none =>
        rw [hmode, apply_mode_none] at h5
        have hfs5 : fs5 = fs3.set (stagePathOf home item)
            (.file item.content none) := ((Except.ok.injEq _ _).mp h5).symm
        subst hfs5
        exact m4
      | some m =>
        rw [hmode, apply_mode_file (by rw [FS.set_apply, if_pos rfl])] at h5
        have hfs5 : fs5 = (fs3.set (stagePathOf home item)
            (.file item.content none)).set (stagePathOf home item)
            (.file item.content (some m)) := ((Except.ok.injEq _ _).mp h5).symm
        subst hfs5
        exact m4.set_pres i5 i6 (by
          rw [FS.set_apply, if_pos rfl]
          exact fun habs => nomatch habs)
    obtain ⟨e0, e1⟩ := create_symlink_shape h6
    subst e1
    exact hstep5.set_pres i1 i2 (by rw [e0]; exact fun habs => nomatch habs)

theorem isSymlinkF_eq_of {fs fs' : FS} {q : Path} (h : fs' q = fs q) :
    isSymlinkF fs' q = isSymlinkF fs q := by
  unfold isSymlinkF
  rw [h]

/-- The link step keeps every other well-separated staged path free of
symlinks. -/
theorem linkOne_preserves_nonlink {home : Path} {ts : Nat} {fs fs' : FS}
    {item other : RenderedTemplate}
    (hgc : GoodDest item.template.destination)
    (hcl : isSymlinkF fs (stagePathOf home item) = false)
    (ho : isSymlinkF fs (stagePathOf home other) = false)
    (h : linkOne home ts fs item = .ok fs') :
    isSymlinkF fs' (stagePathOf home other) = false := by
  obtain ⟨fs1, fs2, fs3, fs4, fs5, h1, h2, h3, h4, h5, h6⟩ := linkOne_split h
  have cl1 : isSymlinkF fs1 (stagePathOf home item) = false := nonlink_cda h1 hcl
  have o1 : isSymlinkF fs1 (stagePathOf home other) = false := nonlink_cda h1 ho
  have hstep2 : isSymlinkF fs2 (stagePathOf home item) = false ∧
      isSymlinkF fs2 (stagePathOf home other) = false := by
    rcases h2 with ⟨hocc, hrec⟩ | ⟨_, rfl⟩
    · cases hn : fs1 (destOf home item) with
      | none => exact absurd hn hocc
      | some n =>
        cases n with
        | symlink t =>
          rw [reconcile_symlink hn] at hrec
          have hfs2 : fs2 = fs1.erase (destOf home item) :=
            ((Except.ok.injEq _ _).mp hrec).symm
          subst hfs2
          exact ⟨nonlink_erase cl1, nonlink_erase o1⟩
        | dir =>
          obtain ⟨fsb, hcdab, _, _, hfs2⟩ :=
            reconcile_occupied_shape hn (fun t habs => nomatch habs) hrec
          subst hfs2
          exact ⟨nonlink_set (fun t habs => nomatch habs)
              (nonlink_erase (nonlink_cda hcdab cl1)),
            nonlink_set (fun t habs => nomatch habs)
              (nonlink_erase (nonlink_cda hcdab o1))⟩
        | file c mo =>
          obtain ⟨fsb, hcdab, _, _, hfs2⟩ :=
            reconcile_occupied_shape hn (fun t habs => nomatch habs) hrec
          subst hfs2
          exact ⟨nonlink_set (fun t habs => nomatch habs)
              (nonlink_erase (nonlink_cda hcdab cl1)),
            nonlink_set (fun t habs => nomatch habs)
              (nonlink_erase (nonlink_cda hcdab o1))⟩
    · exact ⟨cl1, o1⟩
  obtain ⟨cl2, o2⟩ := hstep2
  have cl3 : isSymlinkF fs3 (stagePathOf home item) = false := nonlink_cda h3 cl2
  have o3 : isSymlinkF fs3 (stagePathOf home other) = false := nonlink_cda h3 o2
  obtain ⟨d0, d1⟩ := copyTo_ok_shape (nonlink_iff.mp cl3) h4
  subst d1
  have o4 : isSymlinkF (fs3.set (stagePathOf home item) (.file item.content none))
      (stagePathOf home other) = false :=
    nonlink_set (fun t habs => nomatch habs) o3
  have o5 : isSymlinkF fs5 (stagePathOf home other) = false := by
    cases hmode : item.template.mode with
    | none =>
      rw [hmode, apply_mode_none] at h5
      have hfs5 := ((Except.ok.injEq _ _).mp h5).symm
      rw [hfs5]
      exact o4
    | some m =>
      rw [hmode, apply_mode_file (by rw [FS.set_apply, if_pos rfl])] at h5
      have hfs5 := ((Except.ok.injEq _ _).mp h5).symm
      rw [hfs5]
      exact nonlink_set (fun t habs => nomatch habs) o4
  obtain ⟨e0, e1⟩ := create_symlink_shape h6
  subst e1
  rw [isSymlinkF_eq_of (FS.set_preserves_ne (fun he => dest_ne_stageSide hgc
    (by rw [← stagePathOf_eq]; exact he.symm)))]
  exact o5

/-- The link step keeps the staging root's directory chain intact. -/
theorem linkOne_preserves_stageDirs {home : Path} {ts : Nat} {fs fs' : FS}
    {item : RenderedTemplate}
    (hgc : GoodDest item.template.destination)
    (hcl : isSymlinkF fs (stagePathOf home item) = false)
    (hd : DirsBelow fs (home ++ stageRel))
    (h : linkOne home ts fs item = .ok fs') :
    DirsBelow fs' (home ++ stageRel) := by
  obtain ⟨fs1, fs2, fs3, fs4, fs5, h1, h2, h3, h4, h5, h6⟩ := linkOne_split h
  have hqne : ∀ q, q <+: home ++ stageRel → q ≠ destOf home item := by
    intro q hq he
    subst he
    exact hgc.1 ((List.prefix_append_right_inj home).mp hq)
  have cl1 : isSymlinkF fs1 (stagePathOf home item) = false := nonlink_cda h1 hcl
  have d1 : DirsBelow fs1 (home ++ stageRel) := hd.preserved_cda h1
  have hstep2 : DirsBelow fs2 (home ++ stageRel) ∧
      isSymlinkF fs2 (stagePathOf home item) = false := by
    rcases h2 with ⟨hocc, hrec⟩ | ⟨_, rfl⟩
    · cases hn : fs1 (destOf home item) with
      | none => exact absurd hn hocc
      | some n =>
        cases n with
        | symlink t =>
          rw [reconcile_symlink hn] at hrec
          have hfs2 : fs2 = fs1.erase (destOf home item) :=
            ((Except.ok.injEq _ _).mp hrec).symm
          subst hfs2
          exact ⟨d1.erase_of_ne hqne, nonlink_erase cl1⟩
        | dir =>
          obtain ⟨fsb, hcdab, _, hdstb, hfs2⟩ :=
            reconcile_occupied_shape hn (fun t habs => nomatch habs) hrec
          subst hfs2
          refine ⟨((d1.preserved_cda hcdab).erase_of_ne hqne).set_of_node ?_,
            nonlink_set (fun t habs => nomatch habs)
              (nonlink_erase (nonlink_cda hcdab cl1))⟩
          rw [FS.erase_apply]
          split
          · exact fun habs => nomatch habs
          · exact hdstb
        | file c mo =>
          obtain ⟨fsb, hcdab, _, hdstb, hfs2⟩ :=
            reconcile_occupied_shape hn (fun t habs => nomatch habs) hrec
          subst hfs2
          refine ⟨((d1.preserved_cda hcdab).erase_of_ne hqne).set_of_node ?_,
            nonlink_set (fun t habs => nomatch habs)
              (nonlink_erase (nonlink_cda hcdab cl1))⟩
          rw [FS.erase_apply]
          split
          · exact fun habs => nomatch habs
          · exact hdstb
    · exact ⟨d1, cl1⟩
  obtain ⟨d2, cl2⟩ := hstep2
  have d3 : DirsBelow fs3 (home ++ stageRel) := d2.preserved_cda h3
  have cl3 : isSymlinkF fs3 (stagePathOf home item) = false := nonlink_cda h3 cl2
  obtain ⟨c0, c1⟩ := copyTo_ok_shape (nonlink_iff.mp cl3) h4
  subst c1
  have d4 : DirsBelow (fs3.set (stagePathOf home item) (.file item.content none))
      (home ++ stageRel) := d3.set_of_node c0
  have d5 : DirsBelow fs5 (home ++ stageRel) := by
    cases hmode : item.template.mode with
    | none =>
      rw [hmode, apply_mode_none] at h5
      have hfs5 := ((Except.ok.injEq _ _).mp h5).symm
      rw [hfs5]
      exact d4
    | some m =>
      rw [hmode, apply_mode_file (by rw [FS.set_apply, if_pos rfl])] at h5
      have hfs5 := ((Except.ok.injEq _ _).mp h5).symm
      rw [hfs5]
      exact d4.set_of_node (by
        rw [FS.set_apply, if_pos rfl]
        exact fun habs => nomatch habs)
  obtain ⟨e0, e1⟩ := create_symlink_shape h6
  subst e1
  exact d5.set_of_node (by rw [e0]; exact fun habs => nomatch habs)

/-- Invariant carried through the first run's loop: everything already
processed is managed, every pending staged path is symlink-free, and the
staging root's chain is directories. -/
def LoopInv (home : Path) (fs : FS) (done todo : List RenderedTemplate) : Prop :=
  (∀ i ∈ done, ManagedAt home fs i) ∧
  (∀ j ∈ todo, isSymlinkF fs (stagePathOf home j) = false) ∧
  DirsBelow fs (home ++ stageRel)

theorem linkLoop_establishes {home : Path} {ts : Nat} :
    ∀ {todo done : List RenderedTemplate} {fs s : FS} {out : List Path},
    (∀ i ∈ done ++ todo, GoodDest i.template.destination) →
    ((done ++ todo).map (fun i => i.template.destination)).Nodup →
    LoopInv home fs done todo →
    linkLoop home false ts fs todo = .ok (s, out) →
    (∀ i ∈ done ++ todo, ManagedAt home s i) ∧ DirsBelow s (home ++ stageRel) := by
  intro todo
  induction todo with
  | nil =>
    intro done fs s out hg hnd hinv h
    unfold linkLoop at h
    cases h
    exact ⟨fun i hi => hinv.1 i (by simpa using hi), hinv.2.2⟩
  | cons cur rest ih =>
    intro done fs s out hg hnd hinv h
    unfold linkLoop at h
    rw [if_neg (by simp)] at h
    obtain ⟨fsA, hA, h⟩ := exceptBind_ok h
    obtain ⟨pr, hloop, hfin⟩ := exceptBind_ok h
    obtain ⟨s2, out2⟩ := pr
    simp only at hfin
    cases hfin
    have hgcur : GoodDest cur.template.destination := hg cur (by simp)
    have hclcur : isSymlinkF fs (stagePathOf home cur) = false :=
      hinv.2.1 cur (by simp)
    have hdisj : ∀ i ∈ done, i.template.destination ≠ cur.template.destination := by
      intro i hi he
      rw [List.map_append, List.nodup_append] at hnd
      exact hnd.2.2 (List.mem_map_of_mem _ hi)
        (by rw [List.map_cons]; exact he ▸ List.mem_cons_self _ _)
    have hinvA : LoopInv home fsA (done ++ [cur]) rest := by
      refine ⟨?_, ?_, ?_⟩
      · intro i hi
        rcases List.mem_append.mp hi with hi | hi
        · exact linkOne_preserves_managed hgcur (hg i (by simp [hi]))
            (fun he => hdisj i hi he.symm) hclcur (hinv.1 i hi) hA
        · rw [List.mem_singleton.mp hi]
          exact linkOne_establishes hgcur hclcur hA
      · intro j hj
        exact linkOne_preserves_nonlink hgcur hclcur
          (hinv.2.1 j (by simp [hj])) hA
      · exact linkOne_preserves_stageDirs hgcur hclcur hinv.2.2 hA
    have hshuffle : (done ++ [cur]) ++ rest = done ++ cur :: rest := by
      rw [List.append_assoc]
      rfl
    have hg' : ∀ i ∈ (done ++ [cur]) ++ rest, GoodDest i.template.destination := by
      rw [hshuffle]
      exact hg
    have hnd' : (((done ++ [cur]) ++ rest).map
        (fun i => i.template.destination)).Nodup := by
      rw [hshuffle]
      exact hnd
    obtain ⟨hman, hdirs⟩ := ih hg' hnd' hinvA hloop
    refine ⟨?_, hdirs⟩
    intro i hi
    exact hman i (by rw [hshuffle]; exact hi)

/-- Once a well-separated destination is managed, the link step is a no-op:
it removes the managed symlink, restages identical content, and recreates
the identical link. -/
theorem linkOne_fixpoint {home : Path} {ts : Nat} {s : FS} {item : RenderedTemplate}
    (hg : GoodDest item.template.destination)
    (hm : ManagedAt home s item) :
    linkOne home ts s item = .ok s := by
  have hr : item.template.destination ≠ [] := hg.ne_nil
  obtain ⟨hdest, hsp, hd1, hd2⟩ := hm
  have hspne : stagePathOf home item ≠ destOf home item := sp_ne_dest hg
  have hqsp : ∀ q, q <+: (stagePathOf home item).dropLast →
      q ≠ destOf home item := by
    intro q hq he
    subst he
    rw [spDropLast_eq hr] at hq
    exact hg.not_prefix_stage_append _ ((List.prefix_append_right_inj home).mp hq)
  have hesp : (s.erase (destOf home item)) (stagePathOf home item) =
      some (stagedNode item) := by
    rw [FS.erase_apply, if_neg hspne, hsp]
  have hocc : (existsF s linkFuel (destOf home item) ||
      isSymlinkF s (destOf home item)) = true := by
    rw [isSymlinkF_true_iff.mpr ⟨_, hdest⟩, Bool.or_true]
  have hrecon : reconcileIfOccupied s (destOf home item) ts =
      .ok (s.erase (destOf home item)) := by
    unfold reconcileIfOccupied
    rw [hocc]
    simp only [if_true]
    exact reconcile_symlink hdest
  have hcda2 : create_dir_all (s.erase (destOf home item))
      (stagePathOf home item).dropLast = .ok (s.erase (destOf home item)) :=
    create_dir_all_noop (hd2.erase_of_ne hqsp)
  have hcopy : copyTo (s.erase (destOf home item)) (stagePathOf home item)
      item.content = .ok ((s.erase (destOf home item)).set
        (stagePathOf home item) (.file item.content none)) :=
    copyTo_ok_of
      (by rw [hesp]; unfold stagedNode; exact fun t habs => nomatch habs)
      (by rw [hesp]; unfold stagedNode; exact fun habs => nomatch habs)
  have hfinal : ∀ fsx, fsx = s.erase (destOf home item) →
      create_symlink fsx (stagePathOf home item) (destOf home item) = .ok s := by
    intro fsx hfx
    subst hfx
    rw [create_symlink_ok (by rw [FS.erase_apply, if_pos rfl])]
    rw [FS.erase_set_cancel hdest]
  unfold linkOne
  rw [show home ++ item.template.destination = destOf home item from rfl,
    show home ++ stageRel ++ item.template.destination =
      stagePathOf home item from rfl]
  simp only []
  rw [create_dir_all_noop hd1]
  simp only [Bind.bind, Except.bind]
  rw [hrecon]
  simp only []
  rw [hcda2]
  simp only []
  rw [hcopy]
  simp only []
  cases hmode : item.template.mode with
  | none =>
    rw [apply_mode_none]
    simp only []
    have hcollapse : (s.erase (destOf home item)).set (stagePathOf home item)
        (.file item.content none) = s.erase (destOf home item) :=
      FS.set_eq_of_lookup (by rw [hesp]; unfold stagedNode; rw [hmode])
    rw [hcollapse]
    exact hfinal _ rfl
  | some m =>
    rw [apply_mode_file (by rw [FS.set_apply, if_pos rfl])]
    simp only []
    rw [FS.set_set]
    have hcollapse : (s.erase (destOf home item)).set (stagePathOf home item)
        (.file item.content (some m)) = s.erase (destOf home item) :=
      FS.set_eq_of_lookup (by rw [hesp]; unfold stagedNode; rw [hmode])
    rw [hcollapse]
    exact hfinal _ rfl

theorem linkLoop_fixpoint {home : Path} {ts : Nat} {s : FS} :
    ∀ {todo : List RenderedTemplate},
    (∀ i ∈ todo, GoodDest i.template.destination ∧ ManagedAt home s i) →
    linkLoop home false ts s todo =
      .ok (s, todo.map (fun i => home ++ i.template.destination)) := by
  intro todo
  induction todo with
  | nil => intro _; rfl
  | cons cur rest ih =>
    intro h
    unfold linkLoop
    rw [if_neg (by simp)]
    rw [linkOne_fixpoint (h cur (by simp)).1 (h cur (by simp)).2]
    simp only [Bind.bind, Except.bind]
    rw [ih (fun i hi => h i (by simp [hi]))]
    rfl

/-- C1 amended: for a well-separated rendered set — pairwise-distinct
destinations, each prefix-incomparable with the staging subtree
`.dotstrap/generated` and free of `.dotstrap-backups` components — whose
staged paths hold no pre-existing symlinks, a successful non-dry-run
`link_templates` is idempotent: a second run (at any timestamp) returns
exactly the first run's final state and destination list, creating no new
backups, and after the first run every destination is a symlink to its
staged copy. -/
theorem link_templates_idempotent (home : Path) (rendered : RenderedSet)
    (ts1 ts2 : Nat) (fs0 s1 : FS) (out : List Path)
    (hsep : Separated rendered)
    (hclean : CleanStage home fs0 rendered)
    (h1 : link_templates home rendered false ts1 fs0 = .ok (s1, out)) :
    link_templates home rendered false ts2 s1 = .ok (s1, out) ∧
    ∀ item ∈ rendered,
      s1 (destOf home item) = some (.symlink (stagePathOf home item)) := by
  unfold link_templates at h1
  rw [if_neg (by simp)] at h1
  obtain ⟨fsA, hA, hloop⟩ := exceptBind_ok h1
  have hinv : LoopInv home fsA [] rendered := by
    refine ⟨fun i hi => absurd hi (List.not_mem_nil i), ?_, create_dir_all_dirs hA⟩
    intro j hj
    exact nonlink_cda hA (hclean j hj)
  have hg : ∀ i ∈ ([] : List RenderedTemplate) ++ rendered,
      GoodDest i.template.destination := by
    simpa using fun i hi => hsep.2 i hi
  have hnd : ((([] : List RenderedTemplate) ++ rendered).map
      (fun i => i.template.destination)).Nodup := by
    simpa using hsep.1
  obtain ⟨hman, hdirs⟩ := linkLoop_establishes hg hnd hinv hloop
  have hman' : ∀ i ∈ rendered, ManagedAt home s1 i := by
    intro i hi
    exact hman i (by simpa using hi)
  have hout : out = rendered.map (fun i => home ++ i.template.destination) :=
    linkLoop_out hloop
  refine ⟨?_, fun item hi => (hman' item hi).1⟩
  unfold link_templates
  rw [if_neg (by simp)]
  simp only [Bind.bind, Except.bind]
  rw [create_dir_all_noop hdirs]
  simp only []
  rw [linkLoop_fixpoint (fun i hi => ⟨hsep.2 i hi, hman' i hi⟩), hout]

theorem link_templates_idempotent_witness :
    Separated rsW ∧ CleanStage ["h"] fsW rsW ∧
    (link_templates ["h"] rsW false 5 fsW).bind
      (fun pr => link_templates ["h"] rsW false 7 pr.1) =
      link_templates ["h"] rsW false 5 fsW := by
  refine ⟨by unfold Separated GoodDest; decide, by unfold CleanStage; decide, ?_⟩
  cases hw : link_templates ["h"] rsW false 5 fsW with
  | error e =>
    have hok : (link_templates ["h"] rsW false 5 fsW).isOk = true := by decide
    rw [hw] at hok
    exact Bool.noConfusion hok
  | ok pr =>
    have h2 := link_templates_idempotent ["h"] rsW 5 7 fsW pr.1 pr.2
      (by unfold Separated GoodDest; decide) (by unfold CleanStage; decide)
      (by rw [hw])
    simp only [Except.bind]
    rw [h2.1]

/- Distinctness of timestamped backup names reduces to injectivity of the
decimal rendering of the unix second, proved by a decode round-trip on
`Nat.toDigitsCore`. -/

theorem toDigitsCore_ten_shift :
    ∀ (fuel : Nat), ∀ (n : Nat) (ds : List Char), n < fuel →
    Nat.toDigitsCore 10 fuel n ds = Nat.toDigitsCore 10 fuel n [] ++ ds := by
  intro fuel
  induction fuel with
  | zero => intro n ds h; omega
  | succ f ih =>
    intro n ds h
    simp only [Nat.toDigitsCore]
    by_cases h0 : n / 10 = 0
    · rw [if_pos h0, if_pos h0]
      rfl
    · rw [if_neg h0, if_neg h0]
      have hlt : n / 10 < f := by
        have hn : 1 ≤ n := by
          by_contra hc
          push_neg at hc
          interval_cases n
          exact h0 rfl
        have hdl : n / 10 < n := Nat.div_lt_self hn (by omega)
        omega
      rw [ih (n / 10) (Nat.digitChar (n % 10) :: ds) hlt,
        ih (n / 10) [Nat.digitChar (n % 10)] hlt, List.append_assoc]
      rfl

theorem toDigitsCore_ten_fuel :
    ∀ (f1 f2 n : Nat) (ds : List Char), n < f1 → n < f2 →
    Nat.toDigitsCore 10 f1 n ds = Nat.toDigitsCore 10 f2 n ds := by
  intro f1
  induction f1 with
  | zero => intro f2 n ds h1 _; omega
  | succ a ih =>
    intro f2 n ds h1 h2
    cases f2 with
    | zero => omega
    | succ b =>
      simp only [Nat.toDigitsCore]
      by_cases h0 : n / 10 = 0
      · rw [if_pos h0, if_pos h0]
      · rw [if_neg h0, if_neg h0]
        have hn : 1 ≤ n := by
          by_contra hc
          push_neg at hc
          interval_cases n
          exact h0 rfl
        have hlt : n / 10 < n := Nat.div_lt_self hn (by omega)
        exact ih b (n / 10) _ (by omega) (by omega)

theorem toDigits_ten_small {n : Nat} (h : n < 10) :
    Nat.toDigits 10 n = [Nat.digitChar n] := by
  unfold Nat.toDigits
  simp only [Nat.toDigitsCore]
  rw [if_pos (Nat.div_eq_of_lt h), Nat.mod_eq_of_lt h]

theorem toDigits_ten_step {n : Nat} (h : 10 ≤ n) :
    Nat.toDigits 10 n = Nat.toDigits 10 (n / 10) ++ [Nat.digitChar (n % 10)] := by
  have h0 : ¬ n / 10 = 0 := by
    have h1 : 1 ≤ n / 10 := (Nat.one_le_div_iff (by omega)).mpr h
    omega
  have hlt : n / 10 < n := Nat.div_lt_self (by omega) (by omega)
  show Nat.toDigitsCore 10 (n + 1) n [] = _
  simp only [Nat.toDigitsCore]
  rw [if_neg h0]
  rw [toDigitsCore_ten_shift n (n / 10) [Nat.digitChar (n % 10)] hlt]
  rw [toDigitsCore_ten_fuel n (n / 10 + 1) (n / 10) [] hlt (Nat.lt_succ_self _)]
  rfl

/-- Decimal digit value of a digit character. -/
def decodeDigit (c : Char) : Nat := c.toNat - 48

theorem decodeDigit_digitChar {d : Nat} (h : d < 10) :
    decodeDigit (Nat.digitChar d) = d := by
  interval_cases d <;> rfl

theorem decode_toDigits_ten : ∀ n : Nat,
    (Nat.toDigits 10 n).foldl (fun a c => 10 * a + decodeDigit c) 0 = n := by
  intro n
  induction n using Nat.strong_induction_on with
  | _ n ih =>
    by_cases h : n < 10
    · rw [toDigits_ten_small h]
      show 10 * 0 + decodeDigit (Nat.digitChar n) = n
      rw [decodeDigit_digitChar h]
      omega
    · push_neg at h
      rw [toDigits_ten_step h, List.foldl_append]
      show 10 * ((Nat.toDigits 10 (n / 10)).foldl
        (fun a c => 10 * a + decodeDigit c) 0) +
        decodeDigit (Nat.digitChar (n % 10)) = n
      rw [ih (n / 10) (Nat.div_lt_self (by omega) (by omega)),
        decodeDigit_digitChar (Nat.mod_lt n (by omega))]
      omega

theorem toDigits_ten_inj {m n : Nat} (h : Nat.toDigits 10 m = Nat.toDigits 10 n) :
    m = n := by
  have h1 := decode_toDigits_ten m
  rw [h, decode_toDigits_ten n] at h1
  exact h1.symm

theorem natToString_inj {m n : Nat} (h : toString m = toString n) : m = n := by
  apply toDigits_ten_inj
  exact congrArg String.data h

theorem backupName_inj {fname : String} {ts1 ts2 : Nat}
    (h : backupName fname ts1 = backupName fname ts2) : ts1 = ts2 := by
  unfold backupName at h
  have hd := congrArg String.data h
  simp only [String.data_append] at hd
  rw [List.append_assoc, List.append_assoc, List.append_assoc,
    List.append_assoc] at hd
  have h1 := List.append_cancel_left hd
  have h2 := List.append_cancel_left h1
  have h3 := List.append_cancel_right h2
  apply natToString_inj
  have hds : (toString ts1).data = (toString ts2).data := h3
  calc toString ts1 = ⟨(toString ts1).data⟩ := rfl
    _ = ⟨(toString ts2).data⟩ := by rw [hds]
    _ = toString ts2 := rfl

theorem backupPathOf_inj_ts {p : Path} {ts1 ts2 : Nat}
    (h : backupPathOf p ts1 = backupPathOf p ts2) : ts1 = ts2 := by
  unfold backupPathOf at h
  have h1 := List.append_cancel_left h
  exact backupName_inj (List.cons_eq_cons.mp h1).1

theorem backupPath_ne_dest {home : Path} {item : RenderedTemplate} {ts : Nat}
    (hg : GoodDest item.template.destination) :
    backupPathOf (destOf home item) ts ≠ destOf home item := by
  obtain ⟨nm, hbp⟩ := backupPathOf_append home hg.ne_nil ts
  rw [show destOf home item = home ++ item.template.destination from rfl, hbp]
  exact backupish_ne (by simp) hg.2.2

theorem backupPath_ne_sp {home : Path} {item : RenderedTemplate} {ts : Nat}
    (hg : GoodDest item.template.destination) :
    backupPathOf (destOf home item) ts ≠ stagePathOf home item := by
  obtain ⟨nm, hbp⟩ := backupPathOf_append home hg.ne_nil ts
  rw [show destOf home item = home ++ item.template.destination from rfl, hbp,
    stagePathOf_eq]
  exact backupish_ne (by simp) hg.backup_notMem_stage

/-- A successful link step moves a non-symlink occupant of the destination
to the step's timestamped backup path. -/
theorem linkOne_backup {home : Path} {ts : Nat} {fs fs' : FS}
    {item : RenderedTemplate} {n : Node}
    (hg : GoodDest item.template.destination)
    (hcl : isSymlinkF fs (stagePathOf home item) = false)
    (hocc : fs (destOf home item) = some n)
    (hns : ∀ t, n ≠ Node.symlink t)
    (h : linkOne home ts fs item = .ok fs') :
    fs' (backupPathOf (destOf home item) ts) = some n := by
  obtain ⟨fs1, fs2, fs3, fs4, fs5, h1, h2, h3, h4, h5, h6⟩ := linkOne_split h
  have hbd : backupPathOf (destOf home item) ts ≠ destOf home item :=
    backupPath_ne_dest hg
  have hbs : backupPathOf (destOf home item) ts ≠ stagePathOf home item :=
    backupPath_ne_sp hg
  have cl1 : isSymlinkF fs1 (stagePathOf home item) = false := nonlink_cda h1 hcl
  have hocc1 : fs1 (destOf home item) = some n := create_dir_all_preserves h1 hocc
  have hstep2 : fs2 (backupPathOf (destOf home item) ts) = some n ∧
      isSymlinkF fs2 (stagePathOf home item) = false := by
    rcases h2 with ⟨_, hrec⟩ | ⟨hnone, _⟩
    · obtain ⟨fsb, hcdab, _, _, hfs2⟩ := reconcile_occupied_shape hocc1 hns hrec
      subst hfs2
      exact ⟨by rw [FS.set_apply, if_pos rfl],
        nonlink_set hns (nonlink_erase (nonlink_cda hcdab cl1))⟩
    · rw [hnone] at hocc1
      exact Option.noConfusion hocc1
  obtain ⟨b1, b2⟩ := hstep2
  have b3 : fs3 (backupPathOf (destOf home item) ts) = some n :=
    create_dir_all_preserves h3 b1
  have cl3 : isSymlinkF fs3 (stagePathOf home item) = false := nonlink_cda h3 b2
  obtain ⟨d0, d1⟩ := copyTo_ok_shape (nonlink_iff.mp cl3) h4
  subst d1
  have e1 : fs5 (backupPathOf (destOf home item) ts) = some n := by
    cases hmode : item.template.mode with
    | none =>
      rw [hmode, apply_mode_none] at h5
      have hfs5 := ((Except.ok.injEq _ _).mp h5).symm
      rw [hfs5, FS.set_apply, if_neg hbs]
      exact b3
    | some m =>
      rw [hmode, apply_mode_file (by rw [FS.set_apply, if_pos rfl])] at h5
      have hfs5 := ((Except.ok.injEq _ _).mp h5).symm
      rw [hfs5, FS.set_set, FS.set_apply, if_neg hbs]
      exact b3
  obtain ⟨e0, e2⟩ := create_symlink_shape h6
  subst e2
  rw [FS.set_apply, if_neg hbd]
  exact e1

/-- A successful link step leaves untouched any path distinct from the
destination, the staged path, and the step's backup target. -/
theorem linkOne_preserves_at {home : Path} {ts : Nat} {fs fs' : FS}
    {item : RenderedTemplate} {q : Path} {nq : Node}
    (hcl : isSymlinkF fs (stagePathOf home item) = false)
    (hq : fs q = some nq)
    (hq1 : q ≠ destOf home item)
    (hq2 : q ≠ stagePathOf home item)
    (hq3 : q ≠ backupPathOf (destOf home item) ts)
    (h : linkOne home ts fs item = .ok fs') :
    fs' q = some nq := by
  obtain ⟨fs1, fs2, fs3, fs4, fs5, h1, h2, h3, h4, h5, h6⟩ := linkOne_split h
  have cl1 : isSymlinkF fs1 (stagePathOf home item) = false := nonlink_cda h1 hcl
  have q1 : fs1 q = some nq := create_dir_all_preserves h1 hq
  have hstep2 : fs2 q = some nq ∧
      isSymlinkF fs2 (stagePathOf home item) = false := by
    rcases h2 with ⟨hocc, hrec⟩ | ⟨_, hfs2⟩
    · cases hn : fs1 (destOf home item) with
      | none => exact absurd hn hocc
      | some m =>
        cases m with
        | symlink t =>
          rw [reconcile_symlink hn] at hrec
          have hfs2 := ((Except.ok.injEq _ _).mp hrec).symm
          subst hfs2
          exact ⟨by rw [FS.erase_apply, if_neg hq1, q1], nonlink_erase cl1⟩
        | dir =>
          obtain ⟨fsb, hcdab, _, _, hfs2⟩ :=
            reconcile_occupied_shape hn (fun t habs => nomatch habs) hrec
          subst hfs2
          refine ⟨?_, nonlink_set (fun t habs => nomatch habs)
            (nonlink_erase (nonlink_cda hcdab cl1))⟩
          rw [FS.set_apply, if_neg hq3, FS.erase_apply, if_neg hq1]
          exact create_dir_all_preserves hcdab q1
        | file c mo =>
          obtain ⟨fsb, hcdab, _, _, hfs2⟩ :=
            reconcile_occupied_shape hn (fun t habs => nomatch habs) hrec
          subst hfs2
          refine ⟨?_, nonlink_set (fun t habs => nomatch habs)
            (nonlink_erase (nonlink_cda hcdab cl1))⟩
          rw [FS.set_apply, if_neg hq3, FS.erase_apply, if_neg hq1]
          exact create_dir_all_preserves hcdab q1
    · subst hfs2
      exact ⟨q1, cl1⟩
  obtain ⟨b1, b2⟩ := hstep2
  have b3 : fs3 q = some nq := create_dir_all_preserves h3 b1
  have cl3 : isSymlinkF fs3 (stagePathOf home item) = false := nonlink_cda h3 b2
  obtain ⟨d0, d1⟩ := copyTo_ok_shape (nonlink_iff.mp cl3) h4
  subst d1
  have e1 : fs5 q = some nq := by
    cases hmode : item.template.mode with
    | none =>
      rw [hmode, apply_mode_none] at h5
      have hfs5 := ((Except.ok.injEq _ _).mp h5).symm
      rw [hfs5, FS.set_apply, if_neg hq2]
      exact b3
    | some m =>
      rw [hmode, apply_mode_file (by rw [FS.set_apply, if_pos rfl])] at h5
      have hfs5 := ((Except.ok.injEq _ _).mp h5).symm
      rw [hfs5, FS.set_set, FS.set_apply, if_neg hq2]
      exact b3
  obtain ⟨e0, e2⟩ := create_symlink_shape h6
  subst e2
  rw [FS.set_apply, if_neg hq1]
  exact e1

/-- A successful single-mapping run decomposes into the staging-root
creation and one link step, and returns the one destination. -/
theorem link_templates_single {home : Path} {ts : Nat} {fs s : FS}
    {out : List Path} {item : RenderedTemplate}
    (h : link_templates home [item] false ts fs = .ok (s, out)) :
    ∃ fsA, create_dir_all fs (home ++ stageRel) = .ok fsA ∧
      linkOne home ts fsA item = .ok s ∧ out = [destOf home item] := by
  unfold link_templates at h
  rw [if_neg (by simp)] at h
  obtain ⟨fsA, hA, h⟩ := exceptBind_ok h
  refine ⟨fsA, hA, ?_⟩
  unfold linkLoop at h
  rw [if_neg (by simp)] at h
  obtain ⟨fsB, hB, h⟩ := exceptBind_ok h
  obtain ⟨⟨sB, outB⟩, hpr, h⟩ := exceptBind_ok h
  unfold linkLoop at hpr
  cases hpr
  cases h
  exact ⟨hB, rfl⟩

/-- Witness filesystem for backup safety: a home directory `h` containing a
directory `a` with a foreign file of arbitrary content at `h/a/f`. -/
def fsC2 (c0 : String) : FS := fun p =>
  if p = ["h"] then some .dir
  else if p = ["h", "a"] then some .dir
  else if p = ["h", "a", "f"] then some (.file c0 none)
  else none

/-- C2 amended: for every home root, every well-separated destination,
every occupant and foreign file (bytes and mode), every initial filesystem
whose staged path holds no pre-existing symlink, and every pair of runs at
distinct unix seconds: a successful `link_templates` against the
destination occupied by a non-symlink file leaves the destination a
symlink to its staged copy and moves the original occupant, byte for
byte, to the sibling backup directory under its second-stamped name; a
successful later run at a different second against the destination
re-occupied by a different foreign file creates a second backup under a
distinct name and preserves the first. Naming is time-based, hence
collision-free across distinct seconds only: two reconciliations within
one second reuse one name and the later `fs::rename` overwrites the
earlier backup. -/
theorem backup_safety (home : Path) (item : RenderedTemplate)
    (c1 c2 : String) (m1 m2 : Option Nat) (ts1 ts2 : Nat)
    (fs0 s1 s2 : FS) (out1 out2 : List Path)
    (hts : ts1 ≠ ts2)
    (hg : GoodDest item.template.destination)
    (hclean : isSymlinkF fs0 (stagePathOf home item) = false)
    (hocc1 : fs0 (destOf home item) = some (.file c1 m1))
    (h1 : link_templates home [item] false ts1 fs0 = .ok (s1, out1))
    (h2 : link_templates home [item] false ts2
      (s1.set (destOf home item) (.file c2 m2)) = .ok (s2, out2)) :
    s1 (destOf home item) = some (.symlink (stagePathOf home item)) ∧
    s1 (backupPathOf (destOf home item) ts1) = some (.file c1 m1) ∧
    s2 (destOf home item) = some (.symlink (stagePathOf home item)) ∧
    s2 (backupPathOf (destOf home item) ts2) = some (.file c2 m2) ∧
    s2 (backupPathOf (destOf home item) ts1) = some (.file c1 m1) ∧
    backupPathOf (destOf home item) ts1 ≠
      backupPathOf (destOf home item) ts2 := by
  obtain ⟨fsA, hA, hL1, hout1⟩ := link_templates_single h1
  have hclA : isSymlinkF fsA (stagePathOf home item) = false :=
    nonlink_cda hA hclean
  have hoccA : fsA (destOf home item) = some (.file c1 m1) :=
    create_dir_all_preserves hA hocc1
  have hm1 : ManagedAt home s1 item := linkOne_establishes hg hclA hL1
  have hb1 : s1 (backupPathOf (destOf home item) ts1) = some (.file c1 m1) :=
    linkOne_backup hg hclA hoccA (fun t habs => nomatch habs) hL1
  obtain ⟨fsB, hB, hL2, hout2⟩ := link_templates_single h2
  have hclX : isSymlinkF (s1.set (destOf home item) (.file c2 m2))
      (stagePathOf home item) = false :=
    nonlink_set (fun t habs => nomatch habs)
      (isSymlinkF_false_of hm1.2.1 (by
        unfold stagedNode
        exact fun t habs => nomatch habs))
  have hclB : isSymlinkF fsB (stagePathOf home item) = false :=
    nonlink_cda hB hclX
  have hoccB : fsB (destOf home item) = some (.file c2 m2) :=
    create_dir_all_preserves hB (by rw [FS.set_apply, if_pos rfl])
  have hm2 : ManagedAt home s2 item := linkOne_establishes hg hclB hL2
  have hb2 : s2 (backupPathOf (destOf home item) ts2) = some (.file c2 m2) :=
    linkOne_backup hg hclB hoccB (fun t habs => nomatch habs) hL2
  have hbpne : backupPathOf (destOf home item) ts1 ≠
      backupPathOf (destOf home item) ts2 :=
    fun he => hts (backupPathOf_inj_ts he)
  have hqX : (s1.set (destOf home item) (.file c2 m2))
      (backupPathOf (destOf home item) ts1) = some (.file c1 m1) := by
    rw [FS.set_apply, if_neg (backupPath_ne_dest hg), hb1]
  have hqB : fsB (backupPathOf (destOf home item) ts1) = some (.file c1 m1) :=
    create_dir_all_preserves hB hqX
  have hq2 : s2 (backupPathOf (destOf home item) ts1) = some (.file c1 m1) :=
    linkOne_preserves_at hclB hqB (backupPath_ne_dest hg)
      (backupPath_ne_sp hg) hbpne hL2
  exact ⟨hm1.1, hb1, hm2.1, hb2, hq2, hbpne⟩

theorem backup_safety_witness :
    (5 : Nat) ≠ 7 ∧ GoodDest ["a", "f"] ∧
    ((link_templates ["h"] rsW false 5 (fsC2 "old")).bind (fun pr =>
        link_templates ["h"] rsW false 7
          (pr.1.set ["h", "a", "f"] (.file "foreign" none)))).bind (fun pr =>
      Except.ok (pr.1 ["h", "a", "f"],
        pr.1 ["h", "a", ".dotstrap-backups", "f.5.bak"],
        pr.1 ["h", "a", ".dotstrap-backups", "f.7.bak"])) =
      Except.ok (some (.symlink ["h", ".dotstrap", "generated", "a", "f"]),
        some (.file "old" none), some (.file "foreign" none)) := by
  refine ⟨by decide, by unfold GoodDest; decide, ?_⟩
  have hok1 : (link_templates ["h"] rsW false 5 (fsC2 "old")).isOk = true := by
    decide
  have hok2 : ((link_templates ["h"] rsW false 5 (fsC2 "old")).bind (fun pr =>
      link_templates ["h"] rsW false 7
        (pr.1.set ["h", "a", "f"] (.file "foreign" none)))).isOk = true := by
    decide
  cases hw1 : link_templates ["h"] rsW false 5 (fsC2 "old") with
  | error e =>
    rw [hw1] at hok1
    exact Bool.noConfusion hok1
  | ok pr1 =>
    rw [hw1] at hok2
    simp only [Except.bind] at hok2
    cases hw2 : link_templates ["h"] rsW false 7
        (pr1.1.set ["h", "a", "f"] (.file "foreign" none)) with
    | error e =>
      rw [hw2] at hok2
      exact Bool.noConfusion hok2
    | ok pr2 =>
      have H := backup_safety ["h"] ⟨⟨["t"], ["a", "f"], none⟩, "new"⟩
        "old" "foreign" none none 5 7 (fsC2 "old") pr1.1 pr2.1 pr1.2 pr2.2
        (by decide) (by unfold GoodDest; decide) (by decide) (by decide)
        hw1 hw2
      simp only [Except.bind]
      rw [hw2]
      simp only [Except.bind]
      rw [show pr2.1 ["h", "a", "f"] =
          some (Node.symlink ["h", ".dotstrap", "generated", "a", "f"]) from
          H.2.2.1,
        show pr2.1 ["h", "a", ".dotstrap-backups", "f.5.bak"] =
          some (Node.file "old" none) from H.2.2.2.2.1,
        show pr2.1 ["h", "a", ".dotstrap-backups", "f.7.bak"] =
          some (Node.file "foreign" none) from H.2.2.2.1]

end Idempotence

section Templating

/-- A `serde_json::Value`: scalars, arrays, and objects (objects as
association lists of key/value entries; with default features the map is
keyed, so lookup behavior is the observable interface). Numbers are
modelled as integers; no claim inspects numeric values. -/
inductive JValue where
  | null : JValue
  | bool (b : Bool) : JValue
  | num (n : Int) : JValue
  | str (s : String) : JValue
  | arr (elems : List JValue) : JValue
  | obj (entries : List (String × JValue)) : JValue

/-- Keyed-map insert: replace an existing binding of the key or append
(observable behavior of `serde_json::Map::insert` and of a hash map). -/
def assocInsert {α : Type} (k : String) (v : α) :
    List (String × α) → List (String × α)
  | [] => [(k, v)]
  | (k', v') :: rest =>
    if k' = k then (k, v) :: rest else (k', v') :: assocInsert k v rest

/-- Keyed-map lookup. -/
def assocLookup {α : Type} (k : String) : List (String × α) → Option α
  | [] => none
  | (k', v') :: rest => if k' = k then some v' else assocLookup k rest

/-- Fold a mapping's entries into a keyed map (the iteration that copies a
HashMap into a `serde_json::Map`). -/
def assocOfList {α : Type} (l : List (String × α)) : List (String × α) :=
  l.foldl (fun acc kv => assocInsert kv.1 kv.2 acc) []

/-- `build_context(values, secrets)`: copy every values entry to the root
map, build the secrets object from the secrets mapping, and insert it
under the reserved key "secrets", overwriting any same-named value entry.
The two HashMap arguments are modelled as association lists with distinct
keys. -/
def build_context (values secrets : List (String × JValue)) : JValue :=
  let root := assocOfList values
  let secretsMap := assocOfList secrets
  .obj (assocInsert "secrets" (.obj secretsMap) root)

theorem assocLookup_insert_self {α : Type} (k : String) (v : α) :
    ∀ (m : List (String × α)), assocLookup k (assocInsert k v m) = some v := by
  intro m
  induction m with
  | nil => simp [assocInsert, assocLookup]
  | cons kv rest ih =>
    obtain ⟨k', v'⟩ := kv
    unfold assocInsert
    by_cases hk : k' = k
    · rw [if_pos hk]
      simp [assocLookup]
    · rw [if_neg hk]
      unfold assocLookup
      rw [if_neg hk]
      exact ih

theorem assocLookup_insert_ne {α : Type} {q k : String} (v : α) (hne : k ≠ q) :
    ∀ (m : List (String × α)), assocLookup q (assocInsert k v m) = assocLookup q m := by
  intro m
  induction m with
  | nil =>
    unfold assocInsert assocLookup
    rw [if_neg hne]
    rfl
  | cons kv rest ih =>
    obtain ⟨k', v'⟩ := kv
    unfold assocInsert
    by_cases hk : k' = k
    · rw [if_pos hk]
      unfold assocLookup
      rw [if_neg hne, if_neg (fun h => hne (hk.symm.trans h))]
    · rw [if_neg hk]
      unfold assocLookup
      by_cases hq : k' = q
      · rw [if_pos hq, if_pos hq]
      · rw [if_neg hq, if_neg hq]
        exact ih

theorem assocLookup_foldl_not_mem {α : Type} {k : String} :
    ∀ {l : List (String × α)} {acc : List (String × α)},
    k ∉ l.map Prod.fst →
    assocLookup k (l.foldl (fun acc kv => assocInsert kv.1 kv.2 acc) acc) =
      assocLookup k acc := by
  intro l
  induction l with
  | nil => intro acc _; rfl
  | cons kv rest ih =>
    intro acc hk
    rw [List.foldl_cons]
    rw [ih (fun h => hk (List.mem_cons_of_mem _ h))]
    exact assocLookup_insert_ne kv.2
      (fun (h : kv.1 = k) => hk
        (by rw [List.map_cons, ← h]; exact List.mem_cons_self _ _)) acc

theorem assocLookup_assocOfList {α : Type} {k : String} {v : α} :
    ∀ {l : List (String × α)}, (l.map Prod.fst).Nodup → (k, v) ∈ l →
    assocLookup k (assocOfList l) = some v := by
  have main : ∀ (l : List (String × α)) (acc : List (String × α)),
      (l.map Prod.fst).Nodup → (k, v) ∈ l →
      assocLookup k (l.foldl (fun acc kv => assocInsert kv.1 kv.2 acc) acc) =
        some v := by
    intro l
    induction l with
    | nil => intro acc _ hm; cases hm
    | cons kv rest ih =>
      intro acc hnd hm
      rw [List.foldl_cons]
      rcases List.mem_cons.mp hm with rfl | hm'
      · rw [assocLookup_foldl_not_mem (by
          rw [List.map_cons, List.nodup_cons] at hnd
          exact hnd.1)]
        exact assocLookup_insert_self k v acc
      · rw [List.map_cons, List.nodup_cons] at hnd
        exact ih _ hnd.2 hm'
  intro l hnd hm
  exact main l [] hnd hm

/-- C5: `build_context` is a pure total function — equal inputs give
structurally equal outputs; the output root is an object whose reserved
"secrets" entry exactly mirrors the secrets mapping (even when a values
entry is itself named "secrets"), and every other values entry appears
unchanged as a top-level key. -/
theorem build_context_pure (values secrets : List (String × JValue)) :
    (∀ v2 s2, values = v2 → secrets = s2 →
      build_context values secrets = build_context v2 s2) ∧
    (∃ root, build_context values secrets = .obj root ∧
      assocLookup "secrets" root = some (.obj (assocOfList secrets)) ∧
      ((values.map Prod.fst).Nodup → ∀ k v, (k, v) ∈ values → k ≠ "secrets" →
        assocLookup k root = some v)) := by
  refine ⟨fun v2 s2 hv hs => by rw [hv, hs], ?_⟩
  refine ⟨assocInsert "secrets" (.obj (assocOfList secrets)) (assocOfList values),
    rfl, assocLookup_insert_self _ _ _, ?_⟩
  intro hnd k v hm hk
  rw [assocLookup_insert_ne _ (fun h => hk h.symm)]
  exact assocLookup_assocOfList hnd hm

theorem build_context_pure_witness :
    ([("user", JValue.str "ada"), ("secrets", .str "shadowed")] =
        [("user", JValue.str "ada"), ("secrets", .str "shadowed")]) ∧
    (∃ root,
      build_context [("user", JValue.str "ada"), ("secrets", .str "shadowed")]
        [("token", .str "t0")] = .obj root ∧
      assocLookup "secrets" root = some (.obj [("token", .str "t0")]) ∧
      assocLookup "user" root = some (.str "ada")) := by
  have h := build_context_pure
    [("user", JValue.str "ada"), ("secrets", .str "shadowed")]
    [("token", .str "t0")]
  obtain ⟨root, hroot, hsec, hvals⟩ := h.2
  refine ⟨rfl, root, hroot, ?_, ?_⟩
  · rw [hsec]
    rfl
  · exact hvals (by simp) "user" (.str "ada") (by simp) (by simp)

end Templating

section Secrets

/-- `DotstrapError`, restricted to the variants the embedded functions
produce (`errors.rs`). -/
inductive DotstrapError where
  | io : DotstrapError
  | yaml (path : Path) : DotstrapError
  | template (path : Path) : DotstrapError
  | templateCompile (path : Path) : DotstrapError
  | manifestMissingTemplates (path : Path) : DotstrapError
  | unsupportedManifestVersion (path : Path) (version : Nat) : DotstrapError
  | missingSecret (name : String) (provider : String) : DotstrapError
deriving DecidableEq, Repr

/-- A string-form path, as its characters (the `to_string_lossy` view
`expand_path` operates on). -/
abbrev SPath := List Char

/-- `Path::is_relative` on the POSIX path model: no leading separator. -/
def isRelative (p : SPath) : Bool :=
  match p with
  | '/' :: _ => false
  | _ => true

/-- `Path::join`: an absolute right-hand side replaces the left, otherwise
the right side is appended under a separator. -/
def pathJoin (a b : SPath) : SPath :=
  if isRelative b then a ++ ('/' :: b) else b

/-- `expand_path`: a path with the literal `~/` prefix is stripped and
joined to the home directory; otherwise a relative path is joined to the
repository root, and an absolute path is used as-is. -/
def expand_path (path home repo : SPath) : SPath :=
  if ['~', '/'].isPrefixOf path then
    pathJoin home (path.drop 2)
  else if isRelative path then
    pathJoin repo path
  else
    path

/-- `SecretSource`: env-backed (`key`, `optional`) or file-backed. -/
inductive SecretSource where
  | env (key : String) (optional : Bool) : SecretSource
  | file (path : SPath) : SecretSource
deriving DecidableEq, Repr

/-- The resolution loop of `load_secrets` over the parsed entries of
`secrets/secrets.yaml` (HashMap iteration modelled by a key-distinct list;
the absent-file and parse-failure prelude lives in the caller): an env
secret resolves to the variable's string value, is skipped entirely when
absent and optional, and aborts with a missing-secret error naming the
secret and its env-var provider when absent and required; a file secret
reads and trims the expanded path, I/O errors propagating. -/
def load_secrets (env : String → Option String)
    (readFile : SPath → Except Unit String) (home repo : SPath) :
    List (String × SecretSource) → Except DotstrapError (List (String × JValue))
  | [] => .ok []
  | (name, .env key opt) :: rest =>
    match env key with
    | some v => do
      let m ← load_secrets env readFile home repo rest
      .ok ((name, .str v) :: m)
    | none =>
      if opt then load_secrets env readFile home repo rest
      else .error (.missingSecret name ("environment variable " ++ key))
  | (name, .file p) :: rest => do
    let contents ← (readFile (expand_path p home repo)).mapError
      (fun _ => DotstrapError.io)
    let m ← load_secrets env readFile home repo rest
    .ok ((name, .str contents.trim) :: m)


theorem load_secrets_cons_env (env : String → Option String)
    (readFile : SPath → Except Unit String) (home repo : SPath)
    (name key : String) (opt : Bool) (rest : List (String × SecretSource)) :
    load_secrets env readFile home repo ((name, .env key opt) :: rest) =
      match env key with
      | some v => do
        let m ← load_secrets env readFile home repo rest
        .ok ((name, .str v) :: m)
      | none =>
        if opt then load_secrets env readFile home repo rest
        else .error (.missingSecret name ("environment variable " ++ key)) := rfl

theorem load_secrets_cons_file (env : String → Option String)
    (readFile : SPath → Except Unit String) (home repo : SPath)
    (name : String) (p : SPath) (rest : List (String × SecretSource)) :
    load_secrets env readFile home repo ((name, .file p) :: rest) = (do
      let contents ← (readFile (expand_path p home repo)).mapError
        (fun _ => DotstrapError.io)
      let m ← load_secrets env readFile home repo rest
      .ok ((name, .str contents.trim) :: m)) := rfl

theorem assocLookup_eq_none {α : Type} {k : String} :
    ∀ {m : List (String × α)}, k ∉ m.map Prod.fst → assocLookup k m = none := by
  intro m
  induction m with
  | nil => intro _; rfl
  | cons kv rest ih =>
    intro hk
    obtain ⟨k', v'⟩ := kv
    unfold assocLookup
    rw [if_neg (fun h => hk (by rw [List.map_cons, h]; exact List.mem_cons_self _ _))]
    exact ih (fun h => hk (List.mem_cons_of_mem _ h))

theorem load_secrets_cons_env_some {env : String → Option String}
    {readFile : SPath → Except Unit String} {home repo : SPath}
    {name key : String} {opt : Bool} {rest : List (String × SecretSource)}
    {v : String} (henv : env key = some v) :
    load_secrets env readFile home repo ((name, .env key opt) :: rest) = (do
      let m ← load_secrets env readFile home repo rest
      .ok ((name, .str v) :: m)) := by
  rw [load_secrets_cons_env, henv]

theorem load_secrets_cons_env_missing_opt {env : String → Option String}
    {readFile : SPath → Except Unit String} {home repo : SPath}
    {name key : String} {rest : List (String × SecretSource)}
    (henv : env key = none) :
    load_secrets env readFile home repo ((name, .env key true) :: rest) =
      load_secrets env readFile home repo rest := by
  rw [load_secrets_cons_env, henv]
  exact rfl

theorem load_secrets_cons_env_missing_req {env : String → Option String}
    {readFile : SPath → Except Unit String} {home repo : SPath}
    {name key : String} {rest : List (String × SecretSource)}
    (henv : env key = none) :
    load_secrets env readFile home repo ((name, .env key false) :: rest) =
      .error (.missingSecret name ("environment variable " ++ key)) := by
  rw [load_secrets_cons_env, henv]
  exact rfl

theorem load_secrets_names {env : String → Option String}
    {readFile : SPath → Except Unit String} {home repo : SPath} :
    ∀ {entries : List (String × SecretSource)} {m : List (String × JValue)},
    load_secrets env readFile home repo entries = .ok m →
    ∀ x ∈ m.map Prod.fst, x ∈ entries.map Prod.fst := by
  intro entries
  induction entries with
  | nil =>
    intro m h x hx
    simp only [load_secrets] at h
    cases h
    cases hx
  | cons e rest ih =>
    intro m h x hx
    obtain ⟨name, src⟩ := e
    cases src with
    | env key opt =>
      cases henv : env key with
      | some v =>
        rw [load_secrets_cons_env_some henv] at h
        obtain ⟨m1, h1, h2⟩ := exceptBind_ok h
        cases h2
        rw [List.map_cons] at hx
        rcases List.mem_cons.mp hx with rfl | hx1
        · exact List.mem_cons_self _ _
        · exact List.mem_cons_of_mem _ (ih h1 x hx1)
      | none =>
        cases opt with
        | true =>
          rw [load_secrets_cons_env_missing_opt henv] at h
          exact List.mem_cons_of_mem _ (ih h x hx)
        | false =>
          rw [load_secrets_cons_env_missing_req henv] at h
          cases h
    | file p =>
      rw [load_secrets_cons_file] at h
      obtain ⟨c, h1, h2⟩ := exceptBind_ok h
      obtain ⟨m1, h3, h4⟩ := exceptBind_ok h2
      cases h4
      rw [List.map_cons] at hx
      rcases List.mem_cons.mp hx with rfl | hx1
      · exact List.mem_cons_self _ _
      · exact List.mem_cons_of_mem _ (ih h3 x hx1)

/-- C6: env-backed secret resolution policy of `load_secrets`: a present
variable yields the secret as its string value; an absent optional
variable yields no entry at all for that name; an absent required variable
makes the whole load fail (no partial mapping is ever returned), and every
missing-secret failure names a declared required env secret whose variable
is absent, with the provider text identifying that variable. -/
theorem load_secrets_env_policy (env : String → Option String)
    (readFile : SPath → Except Unit String) (home repo : SPath)
    (entries : List (String × SecretSource))
    (hnd : (entries.map Prod.fst).Nodup) :
    (∀ name key opt v m, (name, .env key opt) ∈ entries → env key = some v →
      load_secrets env readFile home repo entries = .ok m →
      assocLookup name m = some (.str v)) ∧
    (∀ name key m, (name, .env key true) ∈ entries → env key = none →
      load_secrets env readFile home repo entries = .ok m →
      assocLookup name m = none) ∧
    (∀ name key, (name, .env key false) ∈ entries → env key = none →
      ∀ m, load_secrets env readFile home repo entries ≠ .ok m) ∧
    (∀ name prov, load_secrets env readFile home repo entries =
        .error (.missingSecret name prov) →
      ∃ key, (name, .env key false) ∈ entries ∧ env key = none ∧
        prov = "environment variable " ++ key) := by
  induction entries with
  | nil =>
    refine ⟨?_, ?_, ?_, ?_⟩
    · intro name key opt v m hm
      cases hm
    · intro name key m hm
      cases hm
    · intro name key hm
      cases hm
    · intro name prov h
      cases h
  | cons e rest ih =>
    obtain ⟨n0, src0⟩ := e
    rw [List.map_cons, List.nodup_cons] at hnd
    obtain ⟨ihA, ihB, ihC, ihD⟩ := ih hnd.2
    have hne_of : ∀ {name : String} {src : SecretSource},
        (name, src) ∈ rest → n0 ≠ name := by
      intro name src hmem he0
      exact hnd.1 (by rw [he0]; exact List.mem_map.mpr ⟨(name, src), hmem, rfl⟩)
    refine ⟨?_, ?_, ?_, ?_⟩
    · intro name key opt v m hmem henv hok
      cases src0 with
      | env k0 o0 =>
        cases henv0 : env k0 with
        | some v0 =>
          rw [load_secrets_cons_env_some henv0] at hok
          obtain ⟨m1, h1, h2⟩ := exceptBind_ok hok
          cases h2
          rcases List.mem_cons.mp hmem with he | hmem1
          · have hn : name = n0 := congrArg Prod.fst he
            have hs : SecretSource.env key opt = .env k0 o0 := congrArg Prod.snd he
            have hk : key = k0 := by cases hs; rfl
            subst hn hk
            rw [henv] at henv0
            cases henv0
            unfold assocLookup
            rw [if_pos rfl]
          · unfold assocLookup
            rw [if_neg (hne_of hmem1)]
            exact ihA name key opt v m1 hmem1 henv h1
        | none =>
          cases o0 with
          | true =>
            rw [load_secrets_cons_env_missing_opt henv0] at hok
            rcases List.mem_cons.mp hmem with he | hmem1
            · have hs : SecretSource.env key opt = .env k0 true := congrArg Prod.snd he
              have hk : key = k0 := by cases hs; rfl
              rw [hk, henv0] at henv
              cases henv
            · exact ihA name key opt v m hmem1 henv hok
          | false =>
            rw [load_secrets_cons_env_missing_req henv0] at hok
            cases hok
      | file p0 =>
        rw [load_secrets_cons_file] at hok
        obtain ⟨c, h1, h2⟩ := exceptBind_ok hok
        obtain ⟨m1, h3, h4⟩ := exceptBind_ok h2
        cases h4
        rcases List.mem_cons.mp hmem with he | hmem1
        · have hs : SecretSource.env key opt = .file p0 := congrArg Prod.snd he
          cases hs
        · unfold assocLookup
          rw [if_neg (hne_of hmem1)]
          exact ihA name key opt v m1 hmem1 henv h3
    · intro name key m hmem henv hok
      cases src0 with
      | env k0 o0 =>
        cases henv0 : env k0 with
        | some v0 =>
          rw [load_secrets_cons_env_some henv0] at hok
          obtain ⟨m1, h1, h2⟩ := exceptBind_ok hok
          cases h2
          rcases List.mem_cons.mp hmem with he | hmem1
          · have hs : SecretSource.env key true = .env k0 o0 := congrArg Prod.snd he
            have hk : key = k0 := by cases hs; rfl
            rw [hk, henv0] at henv
            cases henv
          · unfold assocLookup
            rw [if_neg (hne_of hmem1)]
            exact ihB name key m1 hmem1 henv h1
        | none =>
          cases o0 with
          | true =>
            rw [load_secrets_cons_env_missing_opt henv0] at hok
            rcases List.mem_cons.mp hmem with he | hmem1
            · have hn : name = n0 := congrArg Prod.fst he
              subst hn
              exact assocLookup_eq_none (fun hx =>
                hnd.1 (load_secrets_names hok name hx))
            · exact ihB name key m hmem1 henv hok
          | false =>
            rw [load_secrets_cons_env_missing_req henv0] at hok
            cases hok
      | file p0 =>
        rw [load_secrets_cons_file] at hok
        obtain ⟨c, h1, h2⟩ := exceptBind_ok hok
        obtain ⟨m1, h3, h4⟩ := exceptBind_ok h2
        cases h4
        rcases List.mem_cons.mp hmem with he | hmem1
        · have hs : SecretSource.env key true = .file p0 := congrArg Prod.snd he
          cases hs
        · unfold assocLookup
          rw [if_neg (hne_of hmem1)]
          exact ihB name key m1 hmem1 henv h3
    · intro name key hmem henv m hok
      cases src0 with
      | env k0 o0 =>
        cases henv0 : env k0 with
        | some v0 =>
          rw [load_secrets_cons_env_some henv0] at hok
          obtain ⟨m1, h1, h2⟩ := exceptBind_ok hok
          rcases List.mem_cons.mp hmem with he | hmem1
          · have hs : SecretSource.env key false = .env k0 o0 := congrArg Prod.snd he
            have hk : key = k0 := by cases hs; rfl
            rw [hk, henv0] at henv
            cases henv
          · exact ihC name key hmem1 henv m1 h1
        | none =>
          cases o0 with
          | true =>
            rw [load_secrets_cons_env_missing_opt henv0] at hok
            rcases List.mem_cons.mp hmem with he | hmem1
            · have hs : SecretSource.env key false = .env k0 true := congrArg Prod.snd he
              cases hs
            · exact ihC name key hmem1 henv m hok
          | false =>
            rw [load_secrets_cons_env_missing_req henv0] at hok
            cases hok
      | file p0 =>
        rw [load_secrets_cons_file] at hok
        obtain ⟨c, h1, h2⟩ := exceptBind_ok hok
        obtain ⟨m1, h3, h4⟩ := exceptBind_ok h2
        rcases List.mem_cons.mp hmem with he | hmem1
        · have hs : SecretSource.env key false = .file p0 := congrArg Prod.snd he
          cases hs
        · exact ihC name key hmem1 henv m1 h3
    · intro name prov herr
      cases src0 with
      | env k0 o0 =>
        cases henv0 : env k0 with
        | some v0 =>
          rw [load_secrets_cons_env_some henv0] at herr
          cases hrest : load_secrets env readFile home repo rest with
          | error e =>
            rw [hrest] at herr
            simp only [Bind.bind, Except.bind] at herr
            obtain ⟨key, hk1, hk2, hk3⟩ := ihD name prov (by
              rw [hrest]
              exact congrArg Except.error (Except.error.inj herr))
            exact ⟨key, List.mem_cons_of_mem _ hk1, hk2, hk3⟩
          | ok m1 =>
            rw [hrest] at herr
            simp only [Bind.bind, Except.bind] at herr
            cases herr
        | none =>
          cases o0 with
          | true =>
            rw [load_secrets_cons_env_missing_opt henv0] at herr
            obtain ⟨key, hk1, hk2, hk3⟩ := ihD name prov herr
            exact ⟨key, List.mem_cons_of_mem _ hk1, hk2, hk3⟩
          | false =>
            rw [load_secrets_cons_env_missing_req henv0] at herr
            have he := Except.error.inj herr
            cases he
            exact ⟨k0, List.mem_cons_self _ _, henv0, rfl⟩
      | file p0 =>
        rw [load_secrets_cons_file] at herr
        cases hrf : readFile (expand_path p0 home repo) with
        | error e =>
          rw [hrf] at herr
          simp only [Except.mapError, Bind.bind, Except.bind] at herr
          cases Except.error.inj herr
        | ok c =>
          rw [hrf] at herr
          simp only [Except.mapError, Bind.bind, Except.bind] at herr
          cases hrest : load_secrets env readFile home repo rest with
          | error e =>
            rw [hrest] at herr
            simp only at herr
            obtain ⟨key, hk1, hk2, hk3⟩ := ihD name prov (by
              rw [hrest]
              exact congrArg Except.error (Except.error.inj herr))
            exact ⟨key, List.mem_cons_of_mem _ hk1, hk2, hk3⟩
          | ok m1 =>
            rw [hrest] at herr
            simp only at herr
            cases herr

/-- Concrete environment for the secrets witness: only `TOK` is set. -/
def envW : String → Option String :=
  fun k => if k = "TOK" then some "tkn" else none

/-- Concrete secret declarations for the witness: a required env secret
whose variable is set, and an optional one whose variable is absent. -/
def entriesW : List (String × SecretSource) :=
  [("gh", .env "TOK" false), ("opt", .env "MISS" true)]

theorem load_secrets_env_policy_witness :
    load_secrets envW (fun _ => .error ()) [] [] entriesW =
      .ok [("gh", JValue.str "tkn")] ∧
    assocLookup "gh" [("gh", JValue.str "tkn")] = some (.str "tkn") ∧
    assocLookup "opt" [("gh", JValue.str "tkn")] = none := by
  have h := load_secrets_env_policy envW (fun _ => .error ()) [] [] entriesW
    (by decide)
  refine ⟨rfl, ?_, ?_⟩
  · exact h.1 "gh" "TOK" false "tkn" [("gh", JValue.str "tkn")]
      (by decide) rfl rfl
  · exact h.2.1 "opt" "MISS" [("gh", JValue.str "tkn")] (by decide) rfl rfl

/-- C10: only a path beginning with the literal two-character prefix `~/`
is expanded against the home directory; a bare `~`, or a `~`-led name not
followed by `/` (such as `~user/x`), is a relative path joined to the
repository root. -/
theorem expand_path_tilde_policy (path home repo : SPath) :
    (['~', '/'].isPrefixOf path = true →
      expand_path path home repo = pathJoin home (path.drop 2)) ∧
    (expand_path ['~'] home repo = pathJoin repo ['~']) ∧
    (∀ c rest, c ≠ '/' → path = '~' :: c :: rest →
      expand_path path home repo = pathJoin repo path) := by
  refine ⟨?_, rfl, ?_⟩
  · intro h
    unfold expand_path
    rw [if_pos h]
  · intro c rest hc hp
    subst hp
    unfold expand_path
    have hpre : (['~', '/'].isPrefixOf ('~' :: c :: rest)) = false := by
      simp only [List.isPrefixOf, Bool.and_eq_false_imp, beq_iff_eq]
      intro _ h
      exact absurd h (fun h2 => hc h2.symm)
    rw [hpre]
    rfl

theorem expand_path_tilde_policy_witness :
    expand_path ['~', '/', 'x'] ['/', 'h'] ['/', 'r'] =
      pathJoin ['/', 'h'] ['x'] ∧
    expand_path ['~', 'u', '/', 'x'] ['/', 'h'] ['/', 'r'] =
      pathJoin ['/', 'r'] ['~', 'u', '/', 'x'] := by
  have h1 := expand_path_tilde_policy ['~', '/', 'x'] ['/', 'h'] ['/', 'r']
  have h2 := expand_path_tilde_policy ['~', 'u', '/', 'x'] ['/', 'h'] ['/', 'r']
  exact ⟨h1.1 (by decide), h2.2.2 'u' ['/', 'x'] (by decide) rfl⟩

end Secrets

section Config

/-- `Manifest`: schema version and ordered template mappings. -/
structure Manifest where
  version : Nat
  templates : List TemplateMapping
deriving DecidableEq, Repr

/-- `load_manifest` after the read+parse prelude (the file read and YAML
deserialization are abstracted as the `parsed` argument): a parse failure
becomes a yaml error carrying the manifest path; a version different from
the single supported value 1 is rejected; an empty template list is
rejected; otherwise the manifest is returned. -/
def load_manifest (path : Path) (parsed : Except Unit Manifest) :
    Except DotstrapError Manifest := do
  let manifest ← parsed.mapError (fun _ => DotstrapError.yaml path)
  if manifest.version ≠ 1 then
    .error (.unsupportedManifestVersion path manifest.version)
  else if manifest.templates.isEmpty then
    .error (.manifestMissingTemplates path)
  else
    .ok manifest

/-- C9: `load_manifest` fails with a parse (yaml) error on malformed input,
with an unsupported-version error when the version differs from the single
supported value 1, with a missing-templates error when the template list
is empty after parsing, and succeeds returning the manifest exactly when
all three conditions are met. -/
theorem load_manifest_policy (path : Path) :
    (∀ e : Unit, load_manifest path (.error e) = .error (.yaml path)) ∧
    (∀ m : Manifest, m.version ≠ 1 →
      load_manifest path (.ok m) =
        .error (.unsupportedManifestVersion path m.version)) ∧
    (∀ m : Manifest, m.version = 1 → m.templates = [] →
      load_manifest path (.ok m) = .error (.manifestMissingTemplates path)) ∧
    (∀ m : Manifest, m.version = 1 → m.templates ≠ [] →
      load_manifest path (.ok m) = .ok m) := by
  refine ⟨fun e => rfl, ?_, ?_, ?_⟩
  · intro m hv
    unfold load_manifest
    simp only [Except.mapError, Bind.bind, Except.bind]
    rw [if_pos hv]
  · intro m hv ht
    unfold load_manifest
    simp only [Except.mapError, Bind.bind, Except.bind]
    rw [if_neg (fun h => h hv), if_pos (by rw [ht]; rfl)]
  · intro m hv ht
    unfold load_manifest
    simp only [Except.mapError, Bind.bind, Except.bind]
    rw [if_neg (fun h => h hv),
      if_neg (fun hb => ht (by
        cases hm : m.templates with
        | nil => rfl
        | cons a l => rw [hm] at hb; exact Bool.noConfusion hb))]

theorem load_manifest_policy_witness :
    load_manifest ["repo"] (.error ()) = .error (.yaml ["repo"]) ∧
    load_manifest ["repo"] (.ok ⟨2, [⟨["t"], ["d"], none⟩]⟩) =
      .error (.unsupportedManifestVersion ["repo"] 2) ∧
    load_manifest ["repo"] (.ok ⟨1, []⟩) =
      .error (.manifestMissingTemplates ["repo"]) ∧
    load_manifest ["repo"] (.ok ⟨1, [⟨["t"], ["d"], none⟩]⟩) =
      .ok ⟨1, [⟨["t"], ["d"], none⟩]⟩ := by
  have h := load_manifest_policy ["repo"]
  exact ⟨h.1 (), h.2.1 ⟨2, [⟨["t"], ["d"], none⟩]⟩ (by decide),
    h.2.2.1 ⟨1, []⟩ rfl rfl,
    h.2.2.2 ⟨1, [⟨["t"], ["d"], none⟩]⟩ rfl (by decide)⟩

end Config

section Render

/-- Abstract Handlebars interface: `compile` is what
`register_template_string` does to one template's source text, `render`
runs a named template from the registry of everything registered so far
against a context. The registry is keyed by template name, as in the
engine's template store. -/
structure Engine (T : Type) where
  compile : String → Except Unit T
  render : List (String × T) → String → JValue → Except Unit String

/-- The loop of `render_templates`: for each mapping in manifest order,
read the template source (I/O errors become Io), register (compile) it
under the fresh name `template_{idx}` (compile errors become
TemplateCompile naming the source path), render that name against the
shared context (render errors become Template naming the source path), and
pair the mapping with its rendered bytes. The first failure aborts. -/
def renderLoop {T : Type} (eng : Engine T)
    (readFile : Path → Except Unit String)
    (repo : Path) (context : JValue) :
    Nat → List (String × T) → List TemplateMapping →
      Except DotstrapError (List RenderedTemplate)
  | _, _, [] => .ok []
  | idx, registry, tm :: rest => do
    let contents ← (readFile (repo ++ tm.source)).mapError
      (fun _ => DotstrapError.io)
    let compiled ← (eng.compile contents).mapError
      (fun _ => DotstrapError.templateCompile (repo ++ tm.source))
    let registry1 := assocInsert ("template_" ++ toString idx) compiled registry
    let out ← (eng.render registry1 ("template_" ++ toString idx) context).mapError
      (fun _ => DotstrapError.template (repo ++ tm.source))
    let rendered ← renderLoop eng readFile repo context (idx + 1) registry1 rest
    .ok (⟨tm, out⟩ :: rendered)

/-- `render_templates(repo, manifest, context)` over the abstract engine
(the scratch tempdir is modelled by the rendered contents themselves). -/
def render_templates {T : Type} (eng : Engine T)
    (readFile : Path → Except Unit String)
    (repo : Path) (manifest : Manifest) (context : JValue) :
    Except DotstrapError RenderedSet :=
  renderLoop eng readFile repo context 0 [] manifest.templates

theorem renderLoop_cons {T : Type} (eng : Engine T)
    (readFile : Path → Except Unit String) (repo : Path) (context : JValue)
    (idx : Nat) (registry : List (String × T)) (tm : TemplateMapping)
    (rest : List TemplateMapping) :
    renderLoop eng readFile repo context idx registry (tm :: rest) = (do
      let contents ← (readFile (repo ++ tm.source)).mapError
        (fun _ => DotstrapError.io)
      let compiled ← (eng.compile contents).mapError
        (fun _ => DotstrapError.templateCompile (repo ++ tm.source))
      let registry1 := assocInsert ("template_" ++ toString idx) compiled registry
      let out ← (eng.render registry1 ("template_" ++ toString idx)
        context).mapError (fun _ => DotstrapError.template (repo ++ tm.source))
      let rendered ← renderLoop eng readFile repo context (idx + 1) registry1 rest
      .ok (⟨tm, out⟩ :: rendered)) := rfl

theorem renderLoop_templates {T : Type} {eng : Engine T}
    {readFile : Path → Except Unit String} {repo : Path} {context : JValue} :
    ∀ {L : List TemplateMapping} {idx : Nat} {registry : List (String × T)}
      {rs : List RenderedTemplate},
    renderLoop eng readFile repo context idx registry L = .ok rs →
    rs.map (fun r => r.template) = L := by
  intro L
  induction L with
  | nil =>
    intro idx registry rs h
    simp only [renderLoop] at h
    cases h
    rfl
  | cons tm rest ih =>
    intro idx registry rs h
    rw [renderLoop_cons] at h
    obtain ⟨c, h1, h⟩ := exceptBind_ok h
    obtain ⟨t, h2, h⟩ := exceptBind_ok h
    obtain ⟨o, h3, h⟩ := exceptBind_ok h
    obtain ⟨rendered, h4, h⟩ := exceptBind_ok h
    cases h
    rw [List.map_cons, ih h4]

/-- C7: `render_templates` returns exactly one `RenderedTemplate` per
manifest mapping, in manifest order (the rendered list's mappings are the
manifest's template list itself); and the loop aborts at the first failing
template with an error that names the offending source file — an I/O
failure propagates, a compile failure yields TemplateCompile for that
file, a render failure yields Template for that file, with no rendered
set produced. -/
theorem render_templates_shape {T : Type} (eng : Engine T)
    (readFile : Path → Except Unit String) (repo : Path)
    (manifest : Manifest) (context : JValue) :
    (∀ rs, render_templates eng readFile repo manifest context = .ok rs →
      rs.map (fun r => r.template) = manifest.templates) ∧
    (∀ idx registry tm rest,
      (readFile (repo ++ tm.source) = .error () →
        renderLoop eng readFile repo context idx registry (tm :: rest) =
          .error .io) ∧
      (∀ contents, readFile (repo ++ tm.source) = .ok contents →
        eng.compile contents = .error () →
        renderLoop eng readFile repo context idx registry (tm :: rest) =
          .error (.templateCompile (repo ++ tm.source))) ∧
      (∀ contents compiled, readFile (repo ++ tm.source) = .ok contents →
        eng.compile contents = .ok compiled →
        eng.render (assocInsert ("template_" ++ toString idx) compiled registry)
          ("template_" ++ toString idx) context = .error () →
        renderLoop eng readFile repo context idx registry (tm :: rest) =
          .error (.template (repo ++ tm.source)))) := by
  refine ⟨fun rs h => renderLoop_templates h, ?_⟩
  intro idx registry tm rest
  refine ⟨?_, ?_, ?_⟩
  · intro hread
    rw [renderLoop_cons, hread]
    rfl
  · intro contents hread hcomp
    rw [renderLoop_cons, hread]
    simp only [Except.mapError, Bind.bind, Except.bind]
    rw [hcomp]
  · intro contents compiled hread hcomp hrend
    rw [renderLoop_cons, hread]
    simp only [Except.mapError, Bind.bind, Except.bind]
    rw [hcomp]
    simp only
    rw [hrend]

theorem render_templates_shape_witness :
    (render_templates ⟨fun s => .ok s, fun reg nm _ =>
        match assocLookup nm reg with
        | some t => .ok t
        | none => .error ()⟩
      (fun _ => .ok "body") ["repo"]
      ⟨1, [⟨["t1"], ["d1"], none⟩, ⟨["t2"], ["d2"], none⟩]⟩ .null =
      .ok [⟨⟨["t1"], ["d1"], none⟩, "body"⟩, ⟨⟨["t2"], ["d2"], none⟩, "body"⟩]) ∧
    ([⟨⟨["t1"], ["d1"], none⟩, "body"⟩, ⟨⟨["t2"], ["d2"], none⟩,
        ("body" : String)⟩].map (fun (r : RenderedTemplate) => r.template) =
      [⟨["t1"], ["d1"], none⟩, ⟨["t2"], ["d2"], none⟩]) ∧
    renderLoop ⟨fun s => .ok s, fun reg nm _ =>
        match assocLookup nm reg with
        | some t => .ok t
        | none => .error ()⟩
      (fun _ => .error ()) ["repo"] .null 0 []
      [⟨["t1"], ["d1"], none⟩] = .error .io := by
  have h := render_templates_shape
    (⟨fun s => .ok s, fun reg nm _ =>
        match assocLookup nm reg with
        | some t => .ok t
        | none => .error ()⟩ : Engine String)
    (fun _ => .ok "body") ["repo"]
    ⟨1, [⟨["t1"], ["d1"], none⟩, ⟨["t2"], ["d2"], none⟩]⟩ .null
  have h2 := render_templates_shape
    (⟨fun s => .ok s, fun reg nm _ =>
        match assocLookup nm reg with
        | some t => .ok t
        | none => .error ()⟩ : Engine String)
    (fun _ => .error ()) ["repo"]
    ⟨1, [⟨["t1"], ["d1"], none⟩]⟩ .null
  refine ⟨rfl, ?_, ?_⟩
  · exact h.1 [⟨⟨["t1"], ["d1"], none⟩, "body"⟩, ⟨⟨["t2"], ["d2"], none⟩, "body"⟩]
      rfl
  · exact (h2.2 0 [] ⟨["t1"], ["d1"], none⟩ []).1 rfl

theorem renderLoop_content {T : Type} {eng : Engine T}
    {readFile : Path → Except Unit String} {repo : Path} {context : JValue} :
    ∀ {L : List TemplateMapping} {idx : Nat} {registry : List (String × T)}
      {rs : List RenderedTemplate},
    renderLoop eng readFile repo context idx registry L = .ok rs →
    ∀ i (hi : i < L.length),
    ∃ contents compiled out reg1 nm,
      readFile (repo ++ (L.get ⟨i, hi⟩).source) = .ok contents ∧
      eng.compile contents = .ok compiled ∧
      assocLookup nm reg1 = some compiled ∧
      eng.render reg1 nm context = .ok out ∧
      ∃ (hil : i < rs.length), rs.get ⟨i, hil⟩ = ⟨L.get ⟨i, hi⟩, out⟩ := by
  intro L
  induction L with
  | nil =>
    intro idx registry rs h i hi
    cases hi
  | cons tm rest ih =>
    intro idx registry rs h i hi
    rw [renderLoop_cons] at h
    cases hread : readFile (repo ++ tm.source) with
    | error e =>
      rw [hread] at h
      cases h
    | ok contents =>
      rw [hread] at h
      simp only [Except.mapError, Bind.bind, Except.bind] at h
      cases hcomp : eng.compile contents with
      | error e =>
        rw [hcomp] at h
        cases h
      | ok compiled =>
        rw [hcomp] at h
        simp only at h
        cases hrend : eng.render
            (assocInsert ("template_" ++ toString idx) compiled registry)
            ("template_" ++ toString idx) context with
        | error e =>
          rw [hrend] at h
          cases h
        | ok out =>
          rw [hrend] at h
          simp only at h
          cases hrest : renderLoop eng readFile repo context (idx + 1)
              (assocInsert ("template_" ++ toString idx) compiled registry)
              rest with
          | error e =>
            rw [hrest] at h
            cases h
          | ok rendered =>
            rw [hrest] at h
            simp only at h
            cases h
            cases i with
            | zero =>
              exact ⟨contents, compiled, out, _, _, hread, hcomp,
                assocLookup_insert_self _ _ _, hrend,
                Nat.succ_le_succ (Nat.zero_le _), rfl⟩
            | succ j =>
              obtain ⟨c2, t2, o2, reg2, nm2, ha, hb, hc, hd, hil, he⟩ :=
                ih hrest j (Nat.lt_of_succ_lt_succ hi)
              exact ⟨c2, t2, o2, reg2, nm2, ha, hb, hc, hd,
                Nat.succ_lt_succ hil, he⟩

/-- C8: provided the external engine's render of a named template depends
only on that template's compiled form and the context (the statelessness
the spec requires of the opaque engine), each mapping's rendered output is
a function of its own source bytes and the shared context alone: any two
successful runs — different manifests, repositories, or positions — whose
mappings read equal source bytes yield equal rendered contents. -/
theorem render_stateless {T : Type} (eng : Engine T)
    (hstateless : ∀ reg1 reg2 nm1 nm2 ctx t,
      assocLookup nm1 reg1 = some t → assocLookup nm2 reg2 = some t →
      eng.render reg1 nm1 ctx = eng.render reg2 nm2 ctx)
    (readFile1 readFile2 : Path → Except Unit String) (repo1 repo2 : Path)
    (m1 m2 : Manifest) (context : JValue) (rs1 rs2 : RenderedSet)
    (h1 : render_templates eng readFile1 repo1 m1 context = .ok rs1)
    (h2 : render_templates eng readFile2 repo2 m2 context = .ok rs2)
    (i1 i2 : Nat) (hi1 : i1 < m1.templates.length)
    (hi2 : i2 < m2.templates.length)
    (hbytes : readFile1 (repo1 ++ (m1.templates.get ⟨i1, hi1⟩).source) =
      readFile2 (repo2 ++ (m2.templates.get ⟨i2, hi2⟩).source)) :
    ∃ (h1l : i1 < rs1.length) (h2l : i2 < rs2.length),
      (rs1.get ⟨i1, h1l⟩).content = (rs2.get ⟨i2, h2l⟩).content := by
  obtain ⟨c1, t1, o1, reg1, nm1, ha1, hb1, hc1, hd1, hil1, he1⟩ :=
    renderLoop_content h1 i1 hi1
  obtain ⟨c2, t2, o2, reg2, nm2, ha2, hb2, hc2, hd2, hil2, he2⟩ :=
    renderLoop_content h2 i2 hi2
  refine ⟨hil1, hil2, ?_⟩
  rw [he1, he2]
  show o1 = o2
  have hc : c1 = c2 := Except.ok.inj (ha1.symm.trans (hbytes.trans ha2))
  subst hc
  have ht : t1 = t2 := Except.ok.inj (hb1.symm.trans hb2)
  subst ht
  have hr := hstateless reg1 reg2 nm1 nm2 context t1 hc1 hc2
  exact Except.ok.inj (hd1.symm.trans (hr.trans hd2))

theorem render_stateless_witness :
    ∃ (h1l : 0 < ([⟨⟨["t1"], ["d1"], none⟩, "body"⟩,
        ⟨⟨["t2"], ["d2"], none⟩, ("body" : String)⟩] : RenderedSet).length)
      (h2l : 1 < ([⟨⟨["t1"], ["d1"], none⟩, "body"⟩,
        ⟨⟨["t2"], ["d2"], none⟩, ("body" : String)⟩] : RenderedSet).length),
      (([⟨⟨["t1"], ["d1"], none⟩, "body"⟩, ⟨⟨["t2"], ["d2"], none⟩,
          ("body" : String)⟩] : RenderedSet).get ⟨0, h1l⟩).content =
        (([⟨⟨["t1"], ["d1"], none⟩, "body"⟩, ⟨⟨["t2"], ["d2"], none⟩,
          ("body" : String)⟩] : RenderedSet).get ⟨1, h2l⟩).content := by
  refine render_stateless
    (⟨fun s => .ok s, fun reg nm _ =>
        match assocLookup nm reg with
        | some t => .ok t
        | none => .error ()⟩ : Engine String)
    ?_ (fun _ => .ok "body") (fun _ => .ok "body") ["repo"] ["repo"]
    ⟨1, [⟨["t1"], ["d1"], none⟩, ⟨["t2"], ["d2"], none⟩]⟩
    ⟨1, [⟨["t1"], ["d1"], none⟩, ⟨["t2"], ["d2"], none⟩]⟩ .null _ _
    rfl rfl 0 1 (by decide) (by decide) rfl
  intro reg1 reg2 nm1 nm2 ctx t hl1 hl2
  simp only
  rw [hl1, hl2]

end Render

end Dotstrap
